import Mathlib

/-!
Verification of the embedded file-backed document store (schema validation,
document records, collection model, and the on-disk storage handler).

The development shallowly embeds the JavaScript source:

* strings are `List Char`;
* mappings (JS objects) are association lists `List (Str × Value)`;
* machine time is `Int` (milliseconds since the epoch);
* fallible operations return `Except Err _` or pair their result with
  `Option Err`;
* the storage file is a `Str` (its exact byte content), and each write
  operation is a pure transformation of that value, performed by the code
  under the handler's write lock.
-/

namespace StoriesDB

/-- Strings are modeled as lists of characters. -/
abbrev Str := List Char

/-- Errors are modeled as their message strings. -/
abbrev Err := String

/-- The record separator written between documents (source: dbhandler.js,
constant SEP, the two-byte CR LF sequence). -/
def SEP : Str := ['\r', '\n']

/-- The newline sequence replaced by the sentinel before saving (source:
dbhandler.js, constant newLine). -/
def newLine : Str := ['\r', '\n']

/-- The sentinel token substituted for literal CR LF inside record text
(source: dbhandler.js, constant newLine_encoded). -/
def newLine_encoded : Str := "<|NEW-LINE|>".toList

/-- Leftmost, non-overlapping replacement of each literal CR LF by the
sentinel token: the effect of data.replaceAll(newLine, newLine_encoded)
in dbhandler.js. -/
def encodeNL : Str → Str
  | [] => []
  | [c] => [c]
  | c1 :: c2 :: rest =>
    if c1 = '\r' ∧ c2 = '\n' then newLine_encoded ++ encodeNL rest
    else c1 :: encodeNL (c2 :: rest)

/-- Boolean test for an occurrence of the two-byte CR LF sequence. -/
def hasCRLF : Str → Bool
  | [] => false
  | [_] => false
  | c1 :: c2 :: rest =>
    if c1 = '\r' ∧ c2 = '\n' then true
    else hasCRLF (c2 :: rest)

/-- Leftmost, non-overlapping deletion of each CR LF occurrence: the effect
of data.replaceAll(SEP, '') in DBHandler.#decode_str. -/
def removeSEP : Str → Str
  | [] => []
  | [c] => [c]
  | c1 :: c2 :: rest =>
    if c1 = '\r' ∧ c2 = '\n' then removeSEP rest
    else c1 :: removeSEP (c2 :: rest)

/-- Leftmost, non-overlapping replacement of each sentinel token by CR LF:
the effect of data.replaceAll(newLine_encoded, newLine) in
DBHandler.#decode_str. -/
def decodeSent : Str → Str
  | [] => []
  | c :: rest =>
    if newLine_encoded.isPrefixOf (c :: rest) then
      newLine ++ decodeSent ((c :: rest).drop newLine_encoded.length)
    else
      c :: decodeSent rest
termination_by s => s.length
decreasing_by
  · have h12 : newLine_encoded.length = 12 := by decide
    simp only [List.length_drop, List.length_cons, h12]
    omega
  · simp

/-- DBHandler.#decode_str: strip every SEP, then restore each sentinel token
to CR LF (source: dbhandler.js lines 538-542). -/
def decode_str (data : Str) : Str :=
  decodeSent (removeSEP data)

/-- Joining record lines with the separator "," ++ SEP, as done by
strArray.join(',' + SEP) in DBHandler.#prepare_doc_arr_to_str. -/
def joinSep : List Str → Str
  | [] => []
  | [l] => l
  | l1 :: l2 :: ls => l1 ++ [','] ++ SEP ++ joinSep (l2 :: ls)

/-- DBHandler.#prepare_doc_arr_to_str: encode each line, join the lines with
"," ++ SEP, then wrap in brackets and SEP when nonempty (source:
dbhandler.js lines 525-531). -/
def prepare_doc_arr_to_str (strArray : List Str) : Str :=
  let encoded := strArray.map encodeNL
  let dataStr := joinSep encoded
  if dataStr.length > 0 then '[' :: SEP ++ dataStr ++ SEP ++ [']']
  else dataStr

/-- DBHandler.#prepare_data_and_truncate: given the current file size and the
raw record text, returns the bytes to append and how many trailing bytes of
the file to overwrite from, keeping the file a bracketed, SEP-delimited
array (source: dbhandler.js lines 447-470). -/
def prepare_data_and_truncate (size : Nat) (data : Str) : Str × Nat :=
  let encoded := encodeNL data
  if size = 0 then
    ('[' :: SEP ++ encoded ++ SEP ++ [']'], 0)
  else if size = 2 then
    (SEP ++ encoded ++ SEP ++ [']'], 1)
  else if size ≤ 2 + SEP.length then
    (encoded ++ SEP ++ [']'], 1)
  else
    ([','] ++ SEP ++ encoded ++ SEP ++ [']'], 3)

/-- Effect of a positioned stream write (flags r+, start startIdx): the bytes
from startIdx on are overwritten by data, and any bytes beyond the written
range are kept (source: DBHandler.#save_with_writeStream). -/
def writeAt (file data : Str) (startIdx : Nat) : Str :=
  file.take startIdx ++ data ++ file.drop (startIdx + data.length)

/-- File-level effect of DBHandler.save(dataStr) under the write lock: stat
the file size, compute the surgery with #prepare_data_and_truncate, then
write at (size - truncateIdx) (source: dbhandler.js lines 84-138). -/
def save_to_file (file : Str) (dataStr : Str) : Str :=
  let pd := prepare_data_and_truncate file.length dataStr
  writeAt file pd.1 (file.length - pd.2)

/-- Splitting a buffer on the regular expression ",SEP|SEP" as done by
buffer.split(regex) inside DBHandler.delete_by_match: at each position the
three-byte separator "," CR LF is preferred, otherwise the two-byte CR LF;
acc accumulates the current segment in reverse. -/
def splitSepAux (s : Str) (acc : Str) : List Str :=
  match s with
  | [] => [acc.reverse]
  | c :: rest =>
    if c = ',' ∧ ['\r', '\n'].isPrefixOf rest then
      acc.reverse :: splitSepAux (rest.drop 2) []
    else if c = '\r' ∧ ['\n'].isPrefixOf rest then
      acc.reverse :: splitSepAux (rest.drop 1) []
    else
      splitSepAux rest (c :: acc)
termination_by s.length
decreasing_by
  · simp only [List.length_drop, List.length_cons]
    omega
  · simp only [List.length_drop, List.length_cons]
    omega
  · simp

/-- Top-level split on ",SEP|SEP". -/
def splitSep (s : Str) : List Str :=
  splitSepAux s []

/-- The last character of a line, if any, used for the trailing-comma strip
in DBHandler.delete_by_match. -/
def stripTrailingComma (line : Str) : Str :=
  if line.getLast? = some ',' then line.dropLast else line

/-- The line filter applied by DBHandler.delete_by_match: empty lines, the
brackets and any line containing the pattern as a substring are dropped. -/
def keepLine (pattern line : Str) : Bool :=
  !(line == []) && !(line == ['[']) && !(line == [']']) &&
    !(decide (pattern <:+: line))

/-- File-level effect of DBHandler.delete_by_match(pattern) once the guards
have passed: encode the pattern, split the file on ",SEP|SEP", process every
segment but the last (the last segment stays in the buffer and is never
processed), keep only non-bracket, non-empty lines not containing the
pattern, strip a trailing comma from each kept line, and overwrite the file
with #prepare_doc_arr_to_str of the kept lines (source: dbhandler.js lines
245-318). -/
def delete_by_match_file (pattern : Str) (file : Str) : Str :=
  let encPattern := encodeNL pattern
  let lines := splitSep file
  let processed :=
    (lines.dropLast.filter (keepLine encPattern)).map stripTrailingComma
  prepare_doc_arr_to_str processed

/-- The kept, comma-stripped lines computed by DBHandler.delete_by_match. -/
def deleteKeptLines (pattern : Str) (file : Str) : List Str :=
  ((splitSep file).dropLast.filter (keepLine (encodeNL pattern))).map
    stripTrailingComma

/-- DBHandler.delete_by_match with its guards: rejection on a missing
connection or an empty pattern happens before the file is read, and a read
failure (readOk = false) rejects before anything is written, so in every
error case the file is unchanged (source: dbhandler.js lines 245-318). -/
def delete_by_match (connected readOk : Bool) (pattern : Str) (file : Str) :
    Str × Option Err :=
  if ¬connected then (file, some "not connected")
  else if pattern = [] then (file, some "pattern must be a non-empty string")
  else if ¬readOk then (file, some "Failed reading from file")
  else (delete_by_match_file pattern file, none)

/-- DBHandler.save with its connection guard (source: dbhandler.js lines
84-138). -/
def save_op (connected : Bool) (file dataStr : Str) : Str × Option Err :=
  if ¬connected then (file, some "not connected")
  else (save_to_file file dataStr, none)

/-- File-level effect of DBHandler.overwrite(strArray): a full rewrite with
the prepared join of the given lines (source: dbhandler.js lines 146-175). -/
def overwrite_file (strArray : List Str) : Str :=
  prepare_doc_arr_to_str strArray

/-- The documented non-empty storage layout from the specification:
a bracket, SEP, the records joined by "," ++ SEP, SEP, and the closing
bracket; a collection with no records is the zero-byte file. -/
def layoutRecords (rs : List Str) : Str :=
  if rs = [] then []
  else '[' :: SEP ++ joinSep rs ++ SEP ++ [']']

/-- Result of fs.stat on the target path: the file is missing (ENOENT),
stat failed for another reason, or the entry was found with its kind and
permission mode bits. -/
inductive StatResult where
  | enoent : StatResult
  | otherError : String → StatResult
  | found : Bool → Nat → StatResult

/-- Node's fs.constants.F_OK: the value 0. -/
def fsF_OK : Nat := 0

/-- Node's fs.constants.W_OK: the value 2. -/
def fsW_OK : Nat := 2

/-- Node's fs.constants.R_OK: the value 4. -/
def fsR_OK : Nat := 4

/-- The basename of a path: everything after the last slash. -/
def basenamePart (p : Str) : Str :=
  (p.reverse.takeWhile (fun c => c ≠ '/')).reverse

/-- Node's path.extname: from the last dot of the basename to the end, or
empty when the basename has no dot or only a leading dot. -/
def extname (p : Str) : Str :=
  let base := basenamePart p
  let afterDot := base.reverse.takeWhile (fun c => c ≠ '.')
  if afterDot.length = base.length then []
  else
    let lastDotIdx := base.length - afterDot.length - 1
    if lastDotIdx = 0 then [] else base.drop lastDotIdx

/-- The only allowed database file extension (source: dbhandler.js line
10). -/
def dbFileExt : Str := ".json".toList

/-- Outcome of a successful DBHandler.check_db_file: either an empty file
was created (ENOENT path, mode 0o666) or the existing entry was accepted. -/
inductive CheckResult where
  | createdEmpty : CheckResult
  | validExisting : CheckResult
deriving DecidableEq

/-- DBHandler.check_db_file (source: dbhandler.js lines 339-386): reject a
falsy path or one whose extname is not .json; on ENOENT create the file
empty with read/write mode and accept; on another stat error reject; on a
found entry reject non-files, then evaluate the permission condition
exactly as written — (mode & F_OK) && (mode & W_OK) && (mode & R_OK) != 0,
each conjunct by JS truthiness — rejecting when it is truthy and accepting
otherwise. Because F_OK is 0, the first conjunct is always falsy, so every
regular file is accepted whatever its permissions. -/
def check_db_file (dbFilePath : Str) (st : StatResult) :
    Except Err CheckResult :=
  if dbFilePath = [] ∨ extname dbFilePath ≠ dbFileExt then
    .error "Invalid file type. File must be a .json file"
  else
    match st with
    | .enoent => .ok .createdEmpty
    | .otherError m => .error ("Error accessing file: " ++ m)
    | .found isFile mode =>
      if ¬ isFile then .error "Path is not a file"
      else if mode &&& fsF_OK ≠ 0 ∧ mode &&& fsW_OK ≠ 0 ∧
          mode &&& fsR_OK ≠ 0 then
        .error "File is invisible or does not have R+W permissions"
      else .ok .validExisting

/-- The connection state of a storage handler: the active path, when
connected. -/
structure DBHandler where
  dbFilePath : Option Str

/-- DBHandler.is_connected (source: dbhandler.js lines 72-76). -/
def DBHandler.is_connected (h : DBHandler) : Bool :=
  h.dbFilePath.isSome

/-- DBHandler.connect_dbFilePath (source: dbhandler.js lines 48-59): the
path is first cleared; when check_db_file accepts, the path is recorded as
the active connection, and when it rejects the handler is left disconnected
and the error surfaces. -/
def DBHandler.connect_dbFilePath (dbFilePath : Str) (st : StatResult) :
    DBHandler × Option Err :=
  match check_db_file dbFilePath st with
  | .ok _ => (⟨some dbFilePath⟩, none)
  | .error e => (⟨none⟩, some e)

/-- A JavaScript runtime value of the kinds the schema system supports:
primitive strings, numbers and booleans, plain objects, the boxed String,
Number and Boolean wrappers, Date objects and arrays. Numbers are modeled
as integers and dates as epoch milliseconds. -/
inductive Value where
  | vStr : Str → Value
  | vNum : Int → Value
  | vBool : Bool → Value
  | vObj : List (Str × Value) → Value
  | vBoxedStr : Str → Value
  | vBoxedNum : Int → Value
  | vBoxedBool : Bool → Value
  | vDate : Int → Value
  | vArr : List Value → Value

/-- Strict equality (===) of a runtime value against a primitive string
literal: true exactly when the value is that primitive string. -/
def strictEqStr (v : Value) (s : Str) : Bool :=
  match v with
  | .vStr t => t == s
  | _ => false

/-- First-binding lookup in an association list; JS objects have unique
keys, so this models property access on an object. -/
def alookup {α : Type} (k : Str) : List (Str × α) → Option α
  | [] => none
  | (k2, v) :: rest => if k2 = k then some v else alookup k rest

/-- Key presence, modeling the JS in operator and Object.hasOwn on a plain
object. -/
def hasKey {α : Type} (k : Str) (l : List (Str × α)) : Bool :=
  (alookup k l).isSome

/-- Schema.typeX: typeof x, refined to the constructor name for non-plain
objects (source: schema.js lines 145-150). -/
def typeX : Value → Str
  | .vStr _ => "string".toList
  | .vNum _ => "number".toList
  | .vBool _ => "boolean".toList
  | .vObj _ => "object".toList
  | .vBoxedStr _ => "String".toList
  | .vBoxedNum _ => "Number".toList
  | .vBoxedBool _ => "Boolean".toList
  | .vDate _ => "Date".toList
  | .vArr _ => "Array".toList

/-- JS truthiness of a value. -/
def jsTruthy : Value → Bool
  | .vStr s => s ≠ []
  | .vNum n => n ≠ 0
  | .vBool b => b
  | .vObj _ => true
  | .vBoxedStr _ => true
  | .vBoxedNum _ => true
  | .vBoxedBool _ => true
  | .vDate _ => true
  | .vArr _ => true

/-- Decimal digit string of an integer. -/
def intToStr (n : Int) : Str :=
  if n < 0 then '-' :: Nat.toDigits 10 n.natAbs else Nat.toDigits 10 n.natAbs

/-- Zero-padded decimal digit string. -/
def padNum (width : Nat) (n : Nat) : Str :=
  let ds := Nat.toDigits 10 n
  List.replicate (width - ds.length) '0' ++ ds

/-- Proleptic-Gregorian civil date from days since 1970-01-01
(the standard era-based conversion). -/
def civilFromDays (z0 : Int) : Int × Nat × Nat :=
  let z := z0 + 719468
  let era := z.fdiv 146097
  let doe := (z - era * 146097).toNat
  let yoe := (doe - doe / 1460 + doe / 36524 - doe / 146096) / 365
  let y0 := (yoe : Int) + era * 400
  let doy := doe - (365 * yoe + yoe / 4 - yoe / 100)
  let mp := (5 * doy + 2) / 153
  let d := doy - (153 * mp + 2) / 5 + 1
  let m := if mp < 10 then mp + 3 else mp - 9
  (if m ≤ 2 then y0 + 1 else y0, m, d)

/-- ISO-8601 timestamp of an epoch-milliseconds value, as produced by
Date.prototype.toISOString. -/
def isoOfMillis (t : Int) : Str :=
  let days := t.fdiv 86400000
  let msInDay := (t - days * 86400000).toNat
  let c := civilFromDays days
  let hh := msInDay / 3600000
  let mi := msInDay % 3600000 / 60000
  let ss := msInDay % 60000 / 1000
  let ms := msInDay % 1000
  (if c.1 < 0 then ['-'] else []) ++ padNum 4 c.1.natAbs ++ ['-'] ++
    padNum 2 c.2.1 ++ ['-'] ++ padNum 2 c.2.2 ++ ['T'] ++ padNum 2 hh ++
    [':'] ++ padNum 2 mi ++ [':'] ++ padNum 2 ss ++ ['.'] ++ padNum 3 ms ++
    ['Z']

mutual

/-- JS string coercion of a value (String(x)): used where the source
concatenates a value into a string or uses it as a property key. Dates are
rendered with their ISO timestamp. -/
def jsValueToString : Value → Str
  | .vStr s => s
  | .vNum n => intToStr n
  | .vBool b => if b then "true".toList else "false".toList
  | .vObj _ => "[object Object]".toList
  | .vBoxedStr s => s
  | .vBoxedNum n => intToStr n
  | .vBoxedBool b => if b then "true".toList else "false".toList
  | .vDate t => isoOfMillis t
  | .vArr elems => jsValueListToString elems

/-- JS string coercion of an array: the comma-joined coercions of its
elements. -/
def jsValueListToString : List Value → Str
  | [] => []
  | [v] => jsValueToString v
  | v :: v2 :: rest => jsValueToString v ++ [','] ++ jsValueListToString (v2 :: rest)

end

/-- One normalized schema field specification, as built by
Schema.#set_definition: the stored values of the properties type, required
and default. -/
structure FieldSpec where
  type : Value
  required : Value
  default : Value

/-- The recognized schema options with their values (source default:
timestamps = false). -/
structure SchemaOptions where
  timestamps : Bool
deriving DecidableEq

/-- A compiled schema: the normalized definition plus options. -/
structure Schema where
  definition : List (Str × FieldSpec)
  options : SchemaOptions

namespace Schema

/-- Schema.#allowedTypesAndDefaultsVals: the supported type names and the
default value of each (source: schema.js lines 31-44). -/
def allowedTypesAndDefaultsVals : List (Str × Value) :=
  [("string".toList, .vStr []),
   ("number".toList, .vNum 0),
   ("boolean".toList, .vBool false),
   ("object".toList, .vObj []),
   ("String".toList, .vBoxedStr []),
   ("Number".toList, .vBoxedNum 0),
   ("Boolean".toList, .vBoxedBool false),
   ("Date".toList, .vDate 0),
   ("Array".toList, .vArr [])]

/-- The allowed property names of a schema field specification. -/
def allowedParameterProperties : List Str :=
  ["type".toList, "required".toList, "default".toList]

/-- Loose equality (==) of a primitive string against a runtime value:
strings and boxed strings compare by content, every other comparison the
source performs with it is false. -/
def looseEqStr (s : Str) (v : Value) : Bool :=
  match v with
  | .vStr t => s == t
  | .vBoxedStr t => s == t
  | _ => false

/-- Schema.#is_valid_definition_param_format: the given property object must
have only allowed property names; type must be present with a value that is
a key of the allowed-types map (property keys are string-coerced); required,
when present, must have typeof boolean; default, when present together with
type, must satisfy typeX(default) == type (source: schema.js lines
387-410). -/
def is_valid_definition_param_format (valObj : List (Str × Value)) : Bool :=
  valObj.all (fun p => allowedParameterProperties.contains p.1) &&
  (match alookup ("type".toList) valObj with
   | none => false
   | some ty => hasKey (jsValueToString ty) allowedTypesAndDefaultsVals) &&
  (match alookup ("required".toList) valObj with
   | none => true
   | some rq => typeX rq == "boolean".toList) &&
  (match alookup ("default".toList) valObj, alookup ("type".toList) valObj with
   | some df, some ty => looseEqStr (typeX df) ty
   | _, _ => true)

/-- Schema.#set_definition on one parameter list: every parameter must have
a valid format; present properties are adopted (deep-cloned), missing ones
filled with their defaults — required defaults to false and default to the
allowed-types map entry keyed by the adopted type (source: schema.js lines
344-378). The function-to-name preprocessing step is outside the value
model and is the identity here. -/
def set_definition_go : List (Str × List (Str × Value)) →
    Option (List (Str × FieldSpec))
  | [] => some []
  | (param, defParamVal) :: rest =>
    if is_valid_definition_param_format defParamVal then
      let ty := (alookup ("type".toList) defParamVal).getD (.vStr ("object".toList))
      let rq := (alookup ("required".toList) defParamVal).getD (.vBool false)
      let df := (alookup ("default".toList) defParamVal).getD
        ((alookup (jsValueToString ty) allowedTypesAndDefaultsVals).getD (.vObj []))
      match set_definition_go rest with
      | none => none
      | some r => some ((param, ⟨ty, rq, df⟩) :: r)
    else none

/-- Schema.#set_definition: null on an empty or invalid definition,
otherwise the normalized parameter list. -/
def set_definition (definition : List (Str × List (Str × Value))) :
    Option (List (Str × FieldSpec)) :=
  if definition.isEmpty then none
  else set_definition_go definition

/-- Schema.prototype.set_options: absent options give the defaults; a
present recognized key of the wrong runtime type raises; a present
recognized key of the right type is adopted; unrecognized keys are ignored
(source: schema.js lines 290-315). -/
def set_options (options : Option (List (Str × Value))) :
    Except Err SchemaOptions :=
  match options with
  | none => .ok ⟨false⟩
  | some opts =>
    match alookup ("timestamps".toList) opts with
    | none => .ok ⟨false⟩
    | some (.vBool b) => .ok ⟨b⟩
    | some _ => .error "Invalid format for the options argument"

/-- The Schema constructor: set the definition (throwing on null), then the
options (source: schema.js lines 99-112). -/
def schemaNew (definition : List (Str × List (Str × Value)))
    (options : Option (List (Str × Value))) : Except Err Schema :=
  match set_definition definition with
  | none => .error "Invalid format for the definition argument"
  | some d =>
    match set_options options with
    | .error e => .error e
    | .ok o => .ok ⟨d, o⟩

/-- The raw property object a normalized field specification presents
through the definition getter. -/
def rawOfSpec (spec : FieldSpec) : List (Str × Value) :=
  [("type".toList, spec.type), ("required".toList, spec.required),
   ("default".toList, spec.default)]

/-- The raw definition object the definition getter returns (a deep copy in
the source; values are immutable here). -/
def rawDefinition (s : Schema) : List (Str × List (Str × Value)) :=
  s.definition.map (fun p => (p.1, rawOfSpec p.2))

/-- Schema.is_valid_schema on a model schema: a nonempty definition whose
every parameter has a valid property format; the options read back from the
getter are well-typed by construction (source: schema.js lines 209-234). -/
def is_valid_schema (s : Schema) : Bool :=
  !s.definition.isEmpty &&
    s.definition.all (fun p => is_valid_definition_param_format (rawOfSpec p.2))

/-- Schema.copy: construct a new schema from the original's definition
getter (with no options argument), then set_options with the original's
options getter (source: schema.js lines 241-256). -/
def copy (original : Schema) : Except Err Schema :=
  match schemaNew (rawDefinition original) none with
  | .error e => .error e
  | .ok s =>
    match set_options
        (some [("timestamps".toList, Value.vBool original.options.timestamps)]) with
    | .error e => .error e
    | .ok o => .ok ⟨s.definition, o⟩

end Schema

/-- Escaping of a string for JSON.stringify output. -/
def escapeJson : Str → Str
  | [] => []
  | c :: rest =>
    (if c = '"' then ['\\', '"']
     else if c = '\\' then ['\\', '\\']
     else if c = '\n' then ['\\', 'n']
     else if c = '\r' then ['\\', 'r']
     else if c = '\t' then ['\\', 't']
     else if c = '\x08' then ['\\', 'b']
     else if c = '\x0c' then ['\\', 'f']
     else if c.toNat < 32 then
       '\\' :: 'u' :: padNum 4 c.toNat
     else [c]) ++ escapeJson rest

mutual

/-- JSON.stringify of a runtime value; boxed primitives serialize as their
primitive and dates as their quoted ISO timestamp. -/
def stringifyValue : Value → Str
  | .vStr s => '"' :: escapeJson s ++ ['"']
  | .vNum n => intToStr n
  | .vBool b => if b then "true".toList else "false".toList
  | .vObj fields => '\x7b' :: stringifyFields fields ++ ['\x7d']
  | .vBoxedStr s => '"' :: escapeJson s ++ ['"']
  | .vBoxedNum n => intToStr n
  | .vBoxedBool b => if b then "true".toList else "false".toList
  | .vDate t => '"' :: isoOfMillis t ++ ['"']
  | .vArr elems => '[' :: stringifyElems elems ++ [']']

/-- JSON.stringify of the comma-separated field list of an object. -/
def stringifyFields : List (Str × Value) → Str
  | [] => []
  | [(k, v)] => '"' :: escapeJson k ++ ['"', ':'] ++ stringifyValue v
  | (k, v) :: p :: rest =>
    '"' :: escapeJson k ++ ['"', ':'] ++ stringifyValue v ++ [','] ++
      stringifyFields (p :: rest)

/-- JSON.stringify of the comma-separated element list of an array. -/
def stringifyElems : List Value → Str
  | [] => []
  | [v] => stringifyValue v
  | v :: v2 :: rest => stringifyValue v ++ [','] ++ stringifyElems (v2 :: rest)

end

/-- One document record: its id, validated content, timestamps, schema and
the process-local persisted flag (source: document.js data members). -/
structure Document where
  id : Value
  content : List (Str × Value)
  createTime : Option Int
  updateTime : Option Int
  schema : Schema
  saved : Bool

namespace Document

/-- Document.#setup_content: for each declared schema field in declaration
order — absent and required (truthy) raises; absent and optional takes the
schema default; present with the stored type strictly equal to typeX of the
value is copied; present otherwise raises. The result is a freshly built
mapping and the input is not touched (source: document.js lines 234-260). -/
def setup_content (schemaDef : List (Str × FieldSpec))
    (content : List (Str × Value)) : Except Err (List (Str × Value)) :=
  match schemaDef with
  | [] => .ok []
  | (param, spec) :: rest =>
    match alookup param content with
    | none =>
      if jsTruthy spec.required then
        .error ("Missing required parameter " ++ param.asString ++ " in content!")
      else
        match setup_content rest content with
        | .error e => .error e
        | .ok r => .ok ((param, spec.default) :: r)
    | some v =>
      if strictEqStr spec.type (typeX v) then
        match setup_content rest content with
        | .error e => .error e
        | .ok r => .ok ((param, v) :: r)
      else
        .error ("Wrong parameter " ++ param.asString ++ " type in content!")

/-- The JS typeof of a boolean value: the string "boolean". -/
def typeofOfBool (_ : Bool) : Str := "boolean".toList

/-- The id-adoption guard of Document.#init_doc, embedded as written:
typeof (content._id === typeof this._id) — the inner strict equality is a
boolean, its typeof is the nonempty string "boolean", and the guard is that
string's truthiness (source: document.js line 213). -/
def idAdoptionCheck (v : Value) : Bool :=
  let innerEq := strictEqStr v ("string".toList)
  !(typeofOfBool innerEq).isEmpty

/-- The result of new Date(x) in epoch milliseconds, when valid: numbers
and boxed numbers give their value, booleans 0 or 1, dates copy, plain
objects are invalid, and strings (and arrays, via string coercion) go
through the platform's date parser, supplied as the parameter parseDate. -/
def dateOfValue (parseDate : Str → Option Int) : Value → Option Int
  | .vStr s => parseDate s
  | .vNum n => some n
  | .vBool b => some (if b then 1 else 0)
  | .vObj _ => none
  | .vBoxedStr s => parseDate s
  | .vBoxedNum n => some n
  | .vBoxedBool b => some (if b then 1 else 0)
  | .vDate t => some t
  | .vArr elems => parseDate (jsValueListToString elems)

/-- The freshly minted id: seed, current millis and random hex chars,
dash-separated (source: document.js lines 59-61). -/
def mintId (idSeed : Int) (now : Int) (randHex : Str) : Str :=
  intToStr idSeed ++ ['-'] ++ intToStr now ++ ['-'] ++ randHex

/-- The Document constructor (source: document.js lines 29-63, including
the private #init_doc and #set_options): validate the schema argument;
validate the content against the schema; adopt _id (the type guard is
vacuous), createdAt and updatedAt from the content when present and
date-valid, an adopted createdAt copying to updatedAt when the latter is
absent; when the timestamps option is on and no createdAt was adopted,
stamp both with now (the source's opposite branch mutates a clone and is a
no-op); finally mint a fresh id when the id is still the empty string. -/
def documentNew (parseDate : Str → Option Int) (content : List (Str × Value))
    (schema : Schema) (idSeed : Int) (now : Int) (randHex : Str) :
    Except Err Document :=
  if ¬ Schema.is_valid_schema schema then
    .error "Invalid schema argument. Must be an instance of Schema."
  else
    match setup_content schema.definition content with
    | .error e => .error e
    | .ok newContent =>
      let id1 : Value :=
        match alookup ("_id".toList) content with
        | some v => if idAdoptionCheck v then v else .vStr []
        | none => .vStr []
      let ct : Option Int :=
        match alookup ("createdAt".toList) content with
        | some v => dateOfValue parseDate v
        | none => none
      let ut0 : Option Int :=
        match alookup ("updatedAt".toList) content with
        | some v => dateOfValue parseDate v
        | none => none
      let ut : Option Int := match ut0 with
        | some t => some t
        | none => ct
      let ctut : Option Int × Option Int :=
        if schema.options.timestamps ∧ ct = none then (some now, some now)
        else (ct, ut)
      let idFinal : Value :=
        if strictEqStr id1 [] then .vStr (mintId idSeed now randHex) else id1
      .ok ⟨idFinal, newContent, ctut.1, ctut.2, schema, false⟩

/-- Document.prototype.edit: re-validate the new content; on success replace
the content and stamp updateTime with now; on failure the error propagates
before any field is assigned (source: document.js lines 168-176). -/
def edit (d : Document) (newContent : List (Str × Value)) (now : Int) :
    Except Err Document :=
  match setup_content d.schema.definition newContent with
  | .error e => .error e
  | .ok processed =>
    .ok { d with content := processed, updateTime := some now }

/-- The observable state after calling edit: the new record on success, the
untouched record when edit throws. -/
def editRun (d : Document) (newContent : List (Str × Value)) (now : Int) :
    Document :=
  match edit d newContent now with
  | .ok d2 => d2
  | .error _ => d

/-- Document.prototype.toString: a hand-assembled one-line JSON object with
the _id first (string-coerced), then the JSON.stringify of the content with
its outer braces sliced off, then the optional quoted ISO timestamps
(source: document.js lines 181-195). -/
def docToString (d : Document) : Str :=
  '\x7b' :: '"' :: "_id".toList ++ ['"', ':', '"'] ++ jsValueToString d.id ++
    ['"'] ++ [','] ++ ((stringifyValue (.vObj d.content)).drop 1).dropLast ++
    (match d.createTime with
     | some t => [','] ++ '"' :: "createdAt".toList ++ ['"', ':', '"'] ++
         isoOfMillis t ++ ['"']
     | none => []) ++
    (match d.updateTime with
     | some t => [','] ++ '"' :: "updatedAt".toList ++ ['"', ':', '"'] ++
         isoOfMillis t ++ ['"']
     | none => []) ++
    ['\x7d']

/-- The delete-by-match pattern Document.prototype.save uses for an update:
the _id key fragment followed by the quoted id (source: document.js line
140). -/
def idPattern (d : Document) : Str :=
  "_id".toList ++ ['"', ':', '"'] ++ jsValueToString d.id

/-- Document.prototype.save (source: document.js lines 130-161): with no
connection the call rejects at once. A never-persisted record is appended
with DBHandler.save and then marked persisted. A persisted record first
runs DBHandler.delete_by_match with the quoted-id pattern; if that step
rejects, the rejection propagates and DBHandler.save is never invoked (the
file stays as delete_by_match left it, which in every rejection case is
untouched); otherwise the new encoding is appended and the record marked
persisted. Returns the resulting file, the resulting record and the error
if any. -/
def save (d : Document) (connected readOk : Bool) (file : Str) :
    Str × Document × Option Err :=
  if ¬connected then (file, d, some "not connected")
  else
    let docStr := docToString d
    if d.saved then
      let del := delete_by_match connected readOk (idPattern d) file
      match del.2 with
      | some e => (del.1, d, some e)
      | none => (save_to_file del.1 docStr, { d with saved := true }, none)
    else
      (save_to_file file docStr, { d with saved := true }, none)

/-- True when the first character of the id is a dash (JS doc.id[0] === '-';
indexing a non-string id gives undefined, which is not '-'). -/
def firstCharIsDash : Value → Bool
  | .vStr (c :: _) => c == '-'
  | _ => false

/-- The JS comparison doc.createdAt >= timeCheck: a null createdAt coerces
to 0. -/
def createdAtNotBefore (ct : Option Int) (now : Int) : Bool :=
  ct.getD 0 ≥ now

/-- Document.reconstruct_doc (source: document.js lines 74-96): build a
document with idSeed -1; reject (returning null) when the id was freshly
minted (it then starts with the dash of -1) or when createdAt is not
strictly before the check time; otherwise set the persisted flag from the
saved argument. -/
def reconstruct_doc (parseDate : Str → Option Int)
    (content : List (Str × Value)) (schema : Schema) (savedFlag : Bool)
    (now : Int) (randHex : Str) : Option Document :=
  match documentNew parseDate content schema (-1) now randHex with
  | .error _ => none
  | .ok doc =>
    if firstCharIsDash doc.id then none
    else if createdAtNotBefore doc.createTime now then none
    else some { doc with saved := savedFlag }

end Document

/-- A collection model: its schema and the process-local document counter
(source: model.js data members; the handler connection is threaded
separately). -/
structure Model where
  schema : Schema
  countDocs : Nat

namespace Model

/-- Model.prototype.new_document (source: model.js lines 45-64): under the
counter write lock, construct a Document with idSeed = the current counter
value and post-increment the counter; the increment happens when the
argument is evaluated, before the constructor can throw, so the counter
advances whether or not construction succeeds. -/
def new_document (m : Model) (parseDate : Str → Option Int)
    (content : List (Str × Value)) (now : Int) (randHex : Str) :
    Except Err Document × Model :=
  (Document.documentNew parseDate content m.schema (Int.ofNat m.countDocs)
      now randHex,
   { m with countDocs := m.countDocs + 1 })

/-- The seeds handed out by a sequence of new_document calls on one model
(the counter lock serializes the calls), paired with the final model. -/
def runNewDocuments (m : Model) (parseDate : Str → Option Int)
    (calls : List (List (Str × Value) × Int × Str)) : List Nat × Model :=
  match calls with
  | [] => ([], m)
  | (c, now, rand) :: rest =>
    let seed := m.countDocs
    let step := new_document m parseDate c now rand
    let rr := runNewDocuments step.2 parseDate rest
    (seed :: rr.1, rr.2)

/-- Whether a parsed document's _id is one of the requested ids: JS
Array.prototype.includes compares with strict equality, so a non-string _id
matches no requested id string. -/
def idIncluded (ids : List Str) (v : Value) : Bool :=
  match v with
  | .vStr s => ids.contains s
  | _ => false

/-- Model.#include_docs_array_by_ids: keep the documents having an _id field
whose value is among the ids (source: model.js lines 299-312). -/
def include_docs_array_by_ids (docArray : List (List (Str × Value)))
    (ids : List Str) : List (List (Str × Value)) :=
  docArray.filter (fun doc =>
    match alookup ("_id".toList) doc with
    | none => false
    | some v => idIncluded ids v)

/-- Model.#exclude_docs_array_by_ids: keep the documents having an _id field
whose value is not among the ids (source: model.js lines 321-334). -/
def exclude_docs_array_by_ids (docArray : List (List (Str × Value)))
    (ids : List Str) : List (List (Str × Value)) :=
  docArray.filter (fun doc =>
    match alookup ("_id".toList) doc with
    | none => false
    | some v => !(idIncluded ids v))

/-- Model.prototype.findByIdAndDelete at the document level (source:
model.js lines 196-237): load all documents, overwrite the file with the
complement computed by #exclude_docs_array_by_ids, and return the matches
computed by #include_docs_array_by_ids. -/
def findByIdAndDelete (docs : List (List (Str × Value))) (ids : List Str) :
    List (List (Str × Value)) × List (List (Str × Value)) :=
  (exclude_docs_array_by_ids docs ids, include_docs_array_by_ids docs ids)

end Model

/-! Basic facts about the encoding machinery. -/

theorem newLine_encoded_eq :
    newLine_encoded =
      ['<', '|', 'N', 'E', 'W', '-', 'L', 'I', 'N', 'E', '|', '>'] := by
  decide

theorem newLine_encoded_length : newLine_encoded.length = 12 := by decide

theorem encodeNL_nil : encodeNL [] = [] := rfl

theorem encodeNL_single (c : Char) : encodeNL [c] = [c] := rfl

theorem encodeNL_cons2 (c1 c2 : Char) (rest : Str) :
    encodeNL (c1 :: c2 :: rest) =
      if c1 = '\r' ∧ c2 = '\n' then newLine_encoded ++ encodeNL rest
      else c1 :: encodeNL (c2 :: rest) := by
  rw [encodeNL]

theorem hasCRLF_nil : hasCRLF [] = false := rfl

theorem hasCRLF_single (c : Char) : hasCRLF [c] = false := rfl

theorem hasCRLF_cons2 (c1 c2 : Char) (rest : Str) :
    hasCRLF (c1 :: c2 :: rest) =
      if c1 = '\r' ∧ c2 = '\n' then true else hasCRLF (c2 :: rest) := by
  rw [hasCRLF]

theorem hasCRLF_cons_ne (c : Char) (x : Str) (h : c ≠ '\r') :
    hasCRLF (c :: x) = hasCRLF x := by
  cases x with
  | nil => rfl
  | cons c2 r => rw [hasCRLF_cons2, if_neg]; intro hc; exact h hc.1

theorem hasCRLF_sent_append (x : Str) :
    hasCRLF (newLine_encoded ++ x) = hasCRLF x := by
  rw [newLine_encoded_eq]
  simp only [List.cons_append, List.nil_append]
  rw [hasCRLF_cons_ne _ _ (by decide), hasCRLF_cons_ne _ _ (by decide),
    hasCRLF_cons_ne _ _ (by decide), hasCRLF_cons_ne _ _ (by decide),
    hasCRLF_cons_ne _ _ (by decide), hasCRLF_cons_ne _ _ (by decide),
    hasCRLF_cons_ne _ _ (by decide), hasCRLF_cons_ne _ _ (by decide),
    hasCRLF_cons_ne _ _ (by decide), hasCRLF_cons_ne _ _ (by decide),
    hasCRLF_cons_ne _ _ (by decide), hasCRLF_cons_ne _ _ (by decide)]

/-- The head of an encoded string starting with a non-newline character is
not the newline character. -/
theorem encodeNL_head_ne_newline (c2 : Char) (rest : Str) (h : c2 ≠ '\n')
    (d : Char) (ds : Str) (heq : encodeNL (c2 :: rest) = d :: ds) :
    d ≠ '\n' := by
  cases rest with
  | nil =>
    rw [encodeNL_single] at heq
    cases heq
    exact h
  | cons c3 r2 =>
    rw [encodeNL_cons2] at heq
    by_cases h23 : c2 = '\r' ∧ c3 = '\n'
    · rw [if_pos h23, newLine_encoded_eq] at heq
      cases heq
      decide
    · rw [if_neg h23] at heq
      cases heq
      exact h

/-- The sentinel substitution leaves no CR LF occurrence behind. -/
theorem hasCRLF_encodeNL (t : Str) : hasCRLF (encodeNL t) = false := by
  induction t using encodeNL.induct with
  | case1 => rfl
  | case2 c => rfl
  | case3 c1 c2 rest h ih =>
    rw [encodeNL_cons2, if_pos h, hasCRLF_sent_append]
    exact ih
  | case4 c1 c2 rest h ih =>
    rw [encodeNL_cons2, if_neg h]
    by_cases hc1 : c1 = '\r'
    · have hc2 : c2 ≠ '\n' := fun hc2 => h ⟨hc1, hc2⟩
      cases hrest : encodeNL (c2 :: rest) with
      | nil => rfl
      | cons d ds =>
        rw [hasCRLF_cons2, if_neg, ← hrest]
        · exact ih
        · intro hcr
          exact encodeNL_head_ne_newline c2 rest hc2 d ds hrest hcr.2
    · rw [hasCRLF_cons_ne _ _ hc1]
      exact ih

theorem removeSEP_cons2 (c1 c2 : Char) (rest : Str) :
    removeSEP (c1 :: c2 :: rest) =
      if c1 = '\r' ∧ c2 = '\n' then removeSEP rest
      else c1 :: removeSEP (c2 :: rest) := by
  rw [removeSEP]

/-- Stripping SEP from a string with no CR LF occurrence is the identity. -/
theorem removeSEP_of_not_hasCRLF (s : Str) (h : hasCRLF s = false) :
    removeSEP s = s := by
  induction s using removeSEP.induct with
  | case1 => rfl
  | case2 c => rfl
  | case3 c1 c2 rest hx ih =>
    rw [hasCRLF_cons2, if_pos hx] at h
    exact absurd h (by decide)
  | case4 c1 c2 rest hx ih =>
    rw [hasCRLF_cons2, if_neg hx] at h
    rw [removeSEP_cons2, if_neg hx, ih h]

theorem decodeSent_nil : decodeSent [] = [] := by
  rw [decodeSent]

theorem decodeSent_cons (c : Char) (rest : Str) :
    decodeSent (c :: rest) =
      if newLine_encoded.isPrefixOf (c :: rest) then
        newLine ++ decodeSent ((c :: rest).drop newLine_encoded.length)
      else c :: decodeSent rest := by
  rw [decodeSent]

theorem decodeSent_sent_append (x : Str) :
    decodeSent (newLine_encoded ++ x) = '\r' :: '\n' :: decodeSent x := by
  have hback : '<' :: (['|', 'N', 'E', 'W', '-', 'L', 'I', 'N', 'E', '|', '>'] ++ x) =
      newLine_encoded ++ x := by
    rw [newLine_encoded_eq]
    rfl
  conv_lhs => rw [newLine_encoded_eq, List.cons_append]
  rw [decodeSent_cons]
  rw [if_pos]
  · rw [hback, List.drop_left]
    rfl
  · rw [hback, List.isPrefixOf_iff_prefix]
    exact List.prefix_append _ _

theorem decodeSent_cons_no_sent (c : Char) (rest : Str)
    (h : ¬ newLine_encoded <+: (c :: rest)) :
    decodeSent (c :: rest) = c :: decodeSent rest := by
  rw [decodeSent_cons, if_neg]
  rw [List.isPrefixOf_iff_prefix]
  exact h

/-- Alignment: the sentinel has no nontrivial period, so when a proper
tail of the sentinel is a prefix of an encoded string, that tail already
occurs literally at the start of the source string. -/
theorem sent_drop_prefix_of_encode (u : Str) :
    ∀ k : Nat, 1 ≤ k → k < 12 →
      newLine_encoded.drop k <+: encodeNL u →
      newLine_encoded.drop k <+: u := by
  induction u using encodeNL.induct with
  | case1 =>
    intro k h1 h2 hp
    rw [encodeNL_nil] at hp
    have hlen := hp.length_le
    simp only [List.length_drop, newLine_encoded_length, List.length_nil] at hlen
    omega
  | case2 c =>
    intro k h1 h2 hp
    rw [encodeNL_single] at hp
    exact hp
  | case3 c1 c2 rest h ih =>
    intro k h1 h2 hp
    rw [encodeNL_cons2, if_pos h] at hp
    have hps : newLine_encoded.drop k <+: newLine_encoded := by
      refine List.prefix_of_prefix_length_le hp (List.prefix_append _ _) ?_
      simp only [List.length_drop, newLine_encoded_length]
      omega
    have heq : newLine_encoded.drop k =
        newLine_encoded.take (newLine_encoded.drop k).length :=
      List.prefix_iff_eq_take.mp hps
    rw [List.length_drop, newLine_encoded_length] at heq
    interval_cases k <;> exact absurd heq (by decide)
  | case4 c1 c2 rest h ih =>
    intro k h1 h2 hp
    rw [encodeNL_cons2, if_neg h] at hp
    have hk12 : k < newLine_encoded.length := by
      rw [newLine_encoded_length]; exact h2
    rw [List.drop_eq_getElem_cons hk12] at hp
    obtain ⟨t, ht⟩ := hp
    rw [List.cons_append] at ht
    have hc1 : c1 = newLine_encoded[k] := by
      exact ((List.cons.injEq _ _ _ _).mp ht.symm).1
    have htail : newLine_encoded.drop (k + 1) <+: encodeNL (c2 :: rest) :=
      ⟨t, ((List.cons.injEq _ _ _ _).mp ht.symm).2.symm⟩
    by_cases hk11 : k + 1 < 12
    · have hih := ih (k + 1) (by omega) hk11 htail
      rw [List.drop_eq_getElem_cons hk12, ← hc1]
      exact List.cons_prefix_cons.mpr ⟨rfl, hih⟩
    · have hk : k = 11 := by omega
      subst hk
      rw [List.drop_eq_getElem_cons hk12, ← hc1]
      have h12 : newLine_encoded.drop (11 + 1) = [] := by decide
      rw [h12]
      exact List.cons_prefix_cons.mpr ⟨rfl, List.nil_prefix⟩

/-- Restoring the sentinel inverts the CR LF substitution, provided the
source text does not itself contain the sentinel token. -/
theorem decodeSent_encodeNL (t : Str) (h : ¬ newLine_encoded <:+: t) :
    decodeSent (encodeNL t) = t := by
  induction t using encodeNL.induct with
  | case1 => rw [encodeNL_nil, decodeSent_nil]
  | case2 c =>
    rw [encodeNL_single, decodeSent_cons_no_sent, decodeSent_nil]
    intro hp
    have hlen := hp.length_le
    rw [newLine_encoded_length] at hlen
    simp at hlen
  | case3 c1 c2 rest hx ih =>
    rw [encodeNL_cons2, if_pos hx, decodeSent_sent_append, ih]
    · rw [hx.1, hx.2]
    · intro hi
      exact h (List.infix_cons (List.infix_cons hi))
  | case4 c1 c2 rest hx ih =>
    have h0 : newLine_encoded = newLine_encoded[0] :: newLine_encoded.drop 1 := by
      decide
    rw [encodeNL_cons2, if_neg hx]
    have hnp : ¬ newLine_encoded <+: (c1 :: encodeNL (c2 :: rest)) := by
      intro hp
      rw [h0] at hp
      obtain ⟨hc1, hrest⟩ := List.cons_prefix_cons.mp hp
      have halign := sent_drop_prefix_of_encode (c2 :: rest) 1 (by omega)
        (by omega) hrest
      apply h
      apply List.IsPrefix.isInfix
      rw [h0]
      exact List.cons_prefix_cons.mpr ⟨hc1, halign⟩
    rw [decodeSent_cons_no_sent _ _ hnp, ih]
    intro hi
    exact h (List.infix_cons hi)

/-- The full decode of an encode, as performed by DBHandler.#decode_str, is
the identity on texts that do not contain the sentinel token. -/
theorem decode_str_encodeNL (t : Str) (h : ¬ newLine_encoded <:+: t) :
    decode_str (encodeNL t) = t := by
  unfold decode_str
  rw [removeSEP_of_not_hasCRLF _ (hasCRLF_encodeNL t), decodeSent_encodeNL t h]

/-- C5 (counterexample): a record text consisting of the literal sentinel
token <|NEW-LINE|> — which contains no CR LF at all — is not returned
verbatim by the encode/decode round trip: decoding turns it into a CR LF
sequence. So the round trip is not the identity on every record text. -/
theorem c5_sentinel_text_not_roundtripped :
    decode_str (encodeNL newLine_encoded) ≠ newLine_encoded := by
  have h1 : encodeNL newLine_encoded = newLine_encoded := by decide
  have h2 : removeSEP newLine_encoded = newLine_encoded := by decide
  have h3 : decodeSent newLine_encoded = ['\r', '\n'] := by
    have hx := decodeSent_sent_append []
    rw [List.append_nil] at hx
    rw [hx, decodeSent_nil]
  unfold decode_str
  rw [h1, h2, h3]
  decide

/-- C5 (amended): for every record text that does not contain the sentinel
token <|NEW-LINE|> as a substring, encoding for storage (replacing each
literal CR LF with the sentinel token, DBHandler's replaceAll step before
writing) followed by decoding on load (DBHandler.#decode_str: stripping
separators and restoring the sentinel to CR LF) returns the original record
text verbatim, including embedded CR LF sequences inside the text. -/
theorem c5_encode_decode_roundtrip (t : Str)
    (h : ¬ newLine_encoded <:+: t) :
    decode_str (encodeNL t) = t :=
  decode_str_encodeNL t h

/-- C5 witness: the round trip is the identity on a concrete text with an
embedded CR LF. -/
theorem c5_encode_decode_roundtrip_witness :
    ¬ newLine_encoded <:+: "ab\r\ncd".toList ∧
      decode_str (encodeNL "ab\r\ncd".toList) = "ab\r\ncd".toList :=
  ⟨by decide, c5_encode_decode_roundtrip _ (by decide)⟩

/-! Lemmas about the file layout maintained by DBHandler.save. -/

theorem encodeNL_id_of_no_crlf (t : Str) (h : hasCRLF t = false) :
    encodeNL t = t := by
  induction t using encodeNL.induct with
  | case1 => rfl
  | case2 c => rfl
  | case3 c1 c2 rest hx ih =>
    rw [hasCRLF_cons2, if_pos hx] at h
    exact absurd h (by decide)
  | case4 c1 c2 rest hx ih =>
    rw [hasCRLF_cons2, if_neg hx] at h
    rw [encodeNL_cons2, if_neg hx, ih h]

theorem joinSep_singleton (l : Str) : joinSep [l] = l := rfl

theorem joinSep_cons2 (l1 l2 : Str) (ls : List Str) :
    joinSep (l1 :: l2 :: ls) = l1 ++ [','] ++ SEP ++ joinSep (l2 :: ls) := by
  rw [joinSep]

theorem joinSep_append_single (rs : List Str) (e : Str) (h : rs ≠ []) :
    joinSep (rs ++ [e]) = joinSep rs ++ [','] ++ SEP ++ e := by
  induction rs with
  | nil => cases h rfl
  | cons x xs ih =>
    cases xs with
    | nil =>
      rw [List.cons_append, List.nil_append, joinSep_cons2, joinSep_singleton,
        joinSep_singleton]
    | cons y ys =>
      rw [List.cons_append, List.cons_append, joinSep_cons2, ← List.cons_append,
        ih (by simp), joinSep_cons2]
      simp [List.append_assoc]

theorem layoutRecords_nil : layoutRecords [] = [] := rfl

theorem layoutRecords_of_ne_nil (rs : List Str) (h : rs ≠ []) :
    layoutRecords rs = '[' :: SEP ++ joinSep rs ++ SEP ++ [']'] := by
  rw [layoutRecords, if_neg h]

theorem layoutRecords_length (rs : List Str) (h : rs ≠ []) :
    (layoutRecords rs).length = 6 + (joinSep rs).length := by
  rw [layoutRecords_of_ne_nil rs h]
  simp [SEP]
  omega

/-- Saving into the zero-byte file wraps the encoded text in brackets. -/
theorem save_to_file_empty (text : Str) :
    save_to_file [] text = '[' :: SEP ++ encodeNL text ++ SEP ++ [']'] := by
  unfold save_to_file prepare_data_and_truncate writeAt
  simp

/-- Saving into the two-byte file keeps its opening bracket and inserts the
record before the closing bracket. -/
theorem save_to_file_bracket_pair (text : Str) :
    save_to_file ['[', ']'] text = '[' :: SEP ++ encodeNL text ++ SEP ++ [']'] := by
  have hpd : prepare_data_and_truncate (['[', ']'] : Str).length text =
      (SEP ++ encodeNL text ++ SEP ++ [']'], 1) := by
    unfold prepare_data_and_truncate
    norm_num
  unfold save_to_file writeAt
  rw [hpd]
  simp only []
  rw [List.drop_eq_nil_of_le (by simp [SEP]; omega)]
  simp [SEP]

/-- Dropping the last three bytes of a non-empty layout removes exactly the
trailing SEP and closing bracket. -/
theorem layoutRecords_take (rs : List Str) (h : rs ≠ []) :
    (layoutRecords rs).take ((layoutRecords rs).length - 3) =
      '[' :: (SEP ++ joinSep rs) := by
  have hsplit : layoutRecords rs = ('[' :: (SEP ++ joinSep rs)) ++ (SEP ++ [']']) := by
    rw [layoutRecords_of_ne_nil rs h]
    simp [List.append_assoc]
  conv_lhs => rw [hsplit]
  exact List.take_left' (by simp [SEP])

/-- Saving into a file holding records truncates the trailing SEP and
bracket and appends a comma, SEP, the encoded record, SEP and the closing
bracket. -/
theorem save_to_file_layout (rs : List Str) (text : Str) (h : rs ≠ []) :
    save_to_file (layoutRecords rs) text = layoutRecords (rs ++ [encodeNL text]) := by
  have hL : (layoutRecords rs).length = 6 + (joinSep rs).length :=
    layoutRecords_length rs h
  have hsplit : layoutRecords rs = ('[' :: (SEP ++ joinSep rs)) ++ (SEP ++ [']']) := by
    rw [layoutRecords_of_ne_nil rs h]
    simp [List.append_assoc]
  have hpd : prepare_data_and_truncate (layoutRecords rs).length text =
      ([','] ++ SEP ++ encodeNL text ++ SEP ++ [']'], 3) := by
    unfold prepare_data_and_truncate
    rw [hL]
    rw [if_neg (by omega), if_neg (by omega), if_neg (by simp [SEP]; omega)]
  unfold save_to_file writeAt
  rw [hpd]
  simp only []
  have htake : (layoutRecords rs).take ((layoutRecords rs).length - 3) =
      '[' :: (SEP ++ joinSep rs) := layoutRecords_take rs h
  have hdrop : (layoutRecords rs).drop ((layoutRecords rs).length - 3 +
      ([','] ++ SEP ++ encodeNL text ++ SEP ++ [']']).length) = [] := by
    apply List.drop_eq_nil_of_le
    rw [hL]
    simp [SEP]
    omega
  rw [htake, hdrop, List.append_nil]
  rw [layoutRecords_of_ne_nil (rs ++ [encodeNL text]) (by simp),
    joinSep_append_single rs _ h]
  simp [List.append_assoc]

/-- The layout invariant: any sequence of saves starting from the freshly
created zero-byte file leaves the file in the documented bracketed layout
holding exactly the encoded record texts in order. -/
theorem foldl_save_layout (rs : List Str) (texts : List Str) :
    List.foldl save_to_file (layoutRecords rs) texts =
      layoutRecords (rs ++ texts.map encodeNL) := by
  induction texts generalizing rs with
  | nil => simp
  | cons t ts ih =>
    rw [List.foldl_cons]
    by_cases hrs : rs = []
    · subst hrs
      rw [layoutRecords_nil, List.map_cons]
      have h1 : save_to_file [] t = layoutRecords [encodeNL t] := by
        rw [save_to_file_empty, layoutRecords_of_ne_nil _ (by simp),
          joinSep_singleton]
      rw [h1, ih [encodeNL t]]
      simp
    · rw [save_to_file_layout rs t hrs, ih (rs ++ [encodeNL t]), List.map_cons]
      simp

/-- C2: every write performed by DBHandler.save keeps the storage file in
the documented JSON-array layout. Appending to the zero-byte file produces
bracket SEP record SEP bracket; appending to a file holding only the two
bracket bytes inserts the record before the closing bracket; appending to a
file already in the layout truncates exactly the trailing SEP plus closing
bracket (the last three bytes) and appends comma, SEP, the record, SEP and
the closing bracket — so after any sequence of saves from the empty file
the bytes are bracket SEP record1 comma SEP record2 comma ... SEP recordN
SEP bracket, where SEP is CR LF. Each written record is the saved text with
CR LF replaced by the sentinel, which is the text itself whenever the text
contains no CR LF (fourth conjunct). -/
theorem c2_save_keeps_layout :
    (∀ text, save_to_file [] text =
        '[' :: SEP ++ encodeNL text ++ SEP ++ [']']) ∧
    (∀ text, save_to_file ['[', ']'] text =
        '[' :: SEP ++ encodeNL text ++ SEP ++ [']']) ∧
    (∀ rs text, rs ≠ [] →
        save_to_file (layoutRecords rs) text =
          layoutRecords (rs ++ [encodeNL text]) ∧
        layoutRecords (rs ++ [encodeNL text]) =
          (layoutRecords rs).take ((layoutRecords rs).length - 3) ++
            [','] ++ SEP ++ encodeNL text ++ SEP ++ [']'] ∧
        (layoutRecords rs).take ((layoutRecords rs).length - 3) ++
            (SEP ++ [']']) = layoutRecords rs) ∧
    (∀ text, hasCRLF text = false → encodeNL text = text) ∧
    (∀ texts, List.foldl save_to_file [] texts =
        layoutRecords (texts.map encodeNL)) := by
  refine ⟨save_to_file_empty, save_to_file_bracket_pair, ?_,
    encodeNL_id_of_no_crlf, ?_⟩
  · intro rs text h
    refine ⟨save_to_file_layout rs text h, ?_, ?_⟩
    · rw [layoutRecords_take rs h,
        layoutRecords_of_ne_nil (rs ++ [encodeNL text]) (by simp),
        joinSep_append_single rs _ h]
      simp [List.append_assoc]
    · rw [layoutRecords_take rs h, layoutRecords_of_ne_nil rs h]
      simp [List.append_assoc]
  · intro texts
    have h := foldl_save_layout [] texts
    rw [layoutRecords_nil] at h
    rw [h]
    simp

/-! Lemmas about delete_by_match's splitting of the stored file. -/

theorem splitSepAux_nil (acc : Str) : splitSepAux [] acc = [acc.reverse] := by
  rw [splitSepAux]

theorem splitSepAux_sep3 (rest : Str) (acc : Str) :
    splitSepAux (',' :: '\r' :: '\n' :: rest) acc =
      acc.reverse :: splitSepAux rest [] := by
  rw [splitSepAux]
  rw [if_pos ⟨rfl, by simp [List.isPrefixOf]⟩]
  rfl

theorem splitSepAux_sep2 (c : Char) (rest : Str) (acc : Str) (hc : c ≠ ',') :
    splitSepAux (c :: '\n' :: rest) acc =
      if c = '\r' then acc.reverse :: splitSepAux rest []
      else splitSepAux ('\n' :: rest) (c :: acc) := by
  rw [splitSepAux]
  rw [if_neg (fun hx => hc hx.1)]
  by_cases hr : c = '\r'
  · rw [if_pos ⟨hr, by simp [List.isPrefixOf]⟩, if_pos hr]
    rfl
  · rw [if_neg (fun hx => hr hx.1), if_neg hr]

theorem splitSepAux_consume (c : Char) (rest : Str) (acc : Str)
    (h1 : ¬(c = ',' ∧ ['\r', '\n'].isPrefixOf rest))
    (h2 : ¬(c = '\r' ∧ ['\n'].isPrefixOf rest)) :
    splitSepAux (c :: rest) acc = splitSepAux rest (c :: acc) := by
  rw [splitSepAux]
  rw [if_neg h1, if_neg h2]

theorem hasCRLF_append_left (a b : Str) (h : hasCRLF (a ++ b) = false) :
    hasCRLF a = false := by
  induction a using hasCRLF.induct with
  | case1 => rfl
  | case2 c => rw [hasCRLF_single]
  | case3 c1 c2 rest hx =>
    rw [List.cons_append, List.cons_append, hasCRLF_cons2, if_pos hx] at h
    exact absurd h (by decide)
  | case4 c1 c2 rest hx ih =>
    rw [List.cons_append, List.cons_append, hasCRLF_cons2, if_neg hx] at h
    rw [hasCRLF_cons2, if_neg hx]
    exact ih h

/-- Appending one character that does not complete a CR LF keeps a string
CR LF free. -/
theorem hasCRLF_append_last (a : Str) (c : Char) (h : hasCRLF a = false)
    (hl : a.getLast? = some '\r' → c ≠ '\n') :
    hasCRLF (a ++ [c]) = false := by
  induction a using hasCRLF.induct with
  | case1 => rfl
  | case2 d =>
    rw [List.cons_append, List.nil_append, hasCRLF_cons2, if_neg, hasCRLF_single]
    intro hx
    exact hl (by rw [hx.1]; rfl) hx.2
  | case3 c1 c2 rest hx =>
    rw [hasCRLF_cons2, if_pos hx] at h
    exact absurd h (by decide)
  | case4 c1 c2 rest hx ih =>
    rw [hasCRLF_cons2, if_neg hx] at h
    rw [List.cons_append, List.cons_append, hasCRLF_cons2, if_neg hx]
    rw [← List.cons_append]
    exact ih h (fun hg => hl (by rw [List.getLast?_cons_cons]; exact hg))

/-- Every segment produced by the ",SEP|SEP" split is free of CR LF: the
split consumes every CR LF occurrence as part of a separator. -/
theorem splitSepAux_no_crlf :
    ∀ (s acc : Str), hasCRLF acc.reverse = false →
      (∀ p t, acc = p :: t → p = '\r' → s.head? ≠ some '\n') →
      ∀ l ∈ splitSepAux s acc, hasCRLF l = false := by
  intro s acc
  induction s, acc using splitSepAux.induct with
  | case1 acc =>
    intro hacc hb l hl
    rw [splitSepAux_nil] at hl
    simp only [List.mem_singleton] at hl
    rw [hl]
    exact hacc
  | case2 acc c rest h1 ih =>
    intro hacc hb l hl
    obtain ⟨t, ht⟩ := List.isPrefixOf_iff_prefix.mp h1.2
    rw [h1.1, ← ht] at hl
    simp only [List.cons_append, List.nil_append] at hl
    rw [splitSepAux_sep3] at hl
    rcases List.mem_cons.mp hl with hl | hl
    · rw [hl]; exact hacc
    · refine ih ?_ ?_ l ?_
      · rw [List.reverse_nil]; rfl
      · intro p t2 hpt; cases hpt
      · have hdrop : rest.drop 2 = t := by rw [← ht]; rfl
        rw [hdrop]
        exact hl
  | case3 acc c rest h1 h2 ih =>
    intro hacc hb l hl
    rw [splitSepAux, if_neg h1, if_pos h2] at hl
    rcases List.mem_cons.mp hl with hl | hl
    · rw [hl]; exact hacc
    · refine ih ?_ ?_ l ?_
      · rw [List.reverse_nil]; rfl
      · intro p t2 hpt; cases hpt
      · exact hl
  | case4 acc c rest h1 h2 ih =>
    intro hacc hb l hl
    rw [splitSepAux_consume c rest acc h1 h2] at hl
    refine ih ?_ ?_ l hl
    · rw [List.reverse_cons]
      refine hasCRLF_append_last acc.reverse c hacc ?_
      intro hg
      rw [List.getLast?_reverse] at hg
      cases acc with
      | nil => cases hg
      | cons p t =>
        have hb2 := hb p t rfl (by injection hg)
        intro hc
        exact hb2 (by rw [hc]; rfl)
    · intro p t hpt hp
      cases hpt
      intro hrest
      apply h2
      refine ⟨hp, ?_⟩
      cases rest with
      | nil => cases hrest
      | cons r0 rt =>
        injection hrest with hr0
        rw [hr0]
        simp [List.isPrefixOf]

/-- Every line of the split of any file is CR LF free. -/
theorem splitSep_no_crlf (file : Str) :
    ∀ l ∈ splitSep file, hasCRLF l = false := by
  intro l hl
  refine splitSepAux_no_crlf file [] rfl ?_ l hl
  intro p t hpt
  cases hpt

theorem hasCRLF_cons_false (c : Char) (x : Str) (h : hasCRLF (c :: x) = false) :
    hasCRLF x = false ∧ ¬(c = '\r' ∧ x.head? = some '\n') := by
  cases x with
  | nil => exact ⟨rfl, fun hx => by cases hx.2⟩
  | cons d r =>
    rw [hasCRLF_cons2] at h
    by_cases hc : c = '\r' ∧ d = '\n'
    · rw [if_pos hc] at h
      exact absurd h (by decide)
    · rw [if_neg hc] at h
      refine ⟨h, fun hx => hc ⟨hx.1, ?_⟩⟩
      have hd := hx.2
      simp only [List.head?_cons, Option.some.injEq] at hd
      exact hd

/-- A CR LF free line that does not form a separator across the boundary
with the continuation X is consumed whole into the accumulator. -/
theorem splitSepAux_consume_line (l : Str) :
    ∀ (X acc : Str), hasCRLF l = false →
      (l.getLast? = some ',' → ¬ (['\r', '\n'] : Str).isPrefixOf X) →
      (l.getLast? = some '\r' → X.head? ≠ some '\n') →
      splitSepAux (l ++ X) acc = splitSepAux X (l.reverse ++ acc) := by
  induction l with
  | nil =>
    intro X acc _ _ _
    simp
  | cons c l2 ih =>
    intro X acc hno hb1 hb2
    obtain ⟨hno2, hcd⟩ := hasCRLF_cons_false c l2 hno
    have h1 : ¬(c = ',' ∧ (['\r', '\n'] : Str).isPrefixOf (l2 ++ X)) := by
      intro hx
      obtain ⟨hc, hpre⟩ := hx
      cases l2 with
      | nil =>
        refine hb1 ?_ (by simpa using hpre)
        rw [hc]
        rfl
      | cons d t =>
        rw [List.isPrefixOf_iff_prefix, List.cons_append] at hpre
        obtain ⟨hd, hrest⟩ := List.cons_prefix_cons.mp hpre
        cases t with
        | nil =>
          simp only [List.nil_append] at hrest
          obtain ⟨u, hu⟩ := hrest
          refine hb2 ?_ (by rw [← hu]; rfl)
          rw [List.getLast?_cons_cons, ← hd]
          rfl
        | cons e t2 =>
          rw [List.cons_append] at hrest
          obtain ⟨he, _⟩ := List.cons_prefix_cons.mp hrest
          rw [hasCRLF_cons2, if_pos ⟨hd.symm, he.symm⟩] at hno2
          exact absurd hno2 (by decide)
    have h2 : ¬(c = '\r' ∧ (['\n'] : Str).isPrefixOf (l2 ++ X)) := by
      intro hx
      obtain ⟨hc, hpre⟩ := hx
      rw [List.isPrefixOf_iff_prefix] at hpre
      cases l2 with
      | nil =>
        simp only [List.nil_append] at hpre
        obtain ⟨u, hu⟩ := hpre
        refine hb2 ?_ (by rw [← hu]; rfl)
        rw [hc]
        rfl
      | cons d t =>
        rw [List.cons_append] at hpre
        obtain ⟨hd, _⟩ := List.cons_prefix_cons.mp hpre
        exact hcd ⟨hc, by rw [← hd]; rfl⟩
    rw [List.cons_append, splitSepAux_consume c (l2 ++ X) acc h1 h2]
    rw [ih X (c :: acc) hno2 ?_ ?_]
    · congr 1
      simp
    · intro hg
      apply hb1
      cases l2 with
      | nil => cases hg
      | cons d t =>
        rw [List.getLast?_cons_cons]
        exact hg
    · intro hg
      apply hb2
      cases l2 with
      | nil => cases hg
      | cons d t =>
        rw [List.getLast?_cons_cons]
        exact hg

theorem splitSepAux_line_sep3 (l : Str) (hno : hasCRLF l = false)
    (rest acc : Str) :
    splitSepAux (l ++ ',' :: '\r' :: '\n' :: rest) acc =
      (acc.reverse ++ l) :: splitSepAux rest [] := by
  rw [splitSepAux_consume_line l (',' :: '\r' :: '\n' :: rest) acc hno
      (fun _ => by simp [List.isPrefixOf]) (fun _ => by simp)]
  rw [splitSepAux_sep3, List.reverse_append, List.reverse_reverse]

theorem splitSepAux_bracket_only : splitSepAux [']'] ([] : Str) = [[']']] := by
  rw [splitSepAux_consume ']' [] [] (by simp) (by simp), splitSepAux_nil]
  rfl

theorem splitSepAux_line_end (l : Str) (hno : hasCRLF l = false)
    (hcomma : l.getLast? ≠ some ',') (acc : Str) :
    splitSepAux (l ++ '\r' :: '\n' :: [']']) acc =
      (acc.reverse ++ l) :: [[']']] := by
  rw [splitSepAux_consume_line l ('\r' :: '\n' :: [']']) acc hno
      (fun hg => absurd hg hcomma) (fun _ => by simp)]
  rw [splitSepAux_sep2 '\r' [']'] _ (by decide), if_pos rfl]
  rw [splitSepAux_bracket_only, List.reverse_append, List.reverse_reverse]

/-- Recovering the record lines from a joined body followed by the closing
SEP and bracket. -/
theorem splitSepAux_join (rs : List Str) :
    rs ≠ [] → (∀ r ∈ rs, hasCRLF r = false) →
      (∀ r, rs.getLast? = some r → r.getLast? ≠ some ',') →
      splitSepAux (joinSep rs ++ '\r' :: '\n' :: [']']) [] = rs ++ [[']']] := by
  induction rs with
  | nil => intro h; cases h rfl
  | cons r rest ih =>
    intro _ hall hlast
    cases rest with
    | nil =>
      rw [joinSep_singleton]
      rw [splitSepAux_line_end r (hall r (by simp)) (hlast r rfl) []]
      rfl
    | cons r2 rest2 =>
      rw [joinSep_cons2]
      have hshape : r ++ [','] ++ SEP ++ joinSep (r2 :: rest2) ++ '\r' :: '\n' :: [']'] =
          r ++ ',' :: '\r' :: '\n' :: (joinSep (r2 :: rest2) ++ '\r' :: '\n' :: [']']) := by
        simp [SEP, List.append_assoc]
      rw [hshape]
      rw [splitSepAux_line_sep3 r (hall r (by simp)) _ []]
      rw [ih (by simp) (fun x hx => hall x (by simp [hx]))
        (fun x hx => hlast x (by rw [List.getLast?_cons_cons]; exact hx))]
      rfl

/-- Splitting a non-empty layout recovers the opening bracket, the record
lines and the closing bracket, provided the lines are CR LF free and the
last line does not end with a comma. -/
theorem splitSep_layout (rs : List Str) (h : rs ≠ [])
    (hall : ∀ r ∈ rs, hasCRLF r = false)
    (hlast : ∀ r, rs.getLast? = some r → r.getLast? ≠ some ',') :
    splitSep (layoutRecords rs) = ['['] :: rs ++ [[']']] := by
  rw [layoutRecords_of_ne_nil rs h]
  unfold splitSep
  have hshape : ('[' :: SEP ++ joinSep rs ++ SEP ++ [']'] : Str) =
      '[' :: '\r' :: '\n' :: (joinSep rs ++ '\r' :: '\n' :: [']']) := by
    simp [SEP, List.append_assoc]
  rw [hshape]
  rw [splitSepAux_consume '[' _ [] (by simp) (by simp)]
  rw [splitSepAux_sep2 '\r' _ _ (by decide), if_pos rfl]
  rw [splitSepAux_join rs h hall hlast]
  rfl

theorem encodeNL_length_ge (t : Str) : t.length ≤ (encodeNL t).length := by
  induction t using encodeNL.induct with
  | case1 => simp
  | case2 c => simp [encodeNL_single]
  | case3 c1 c2 rest hx ih =>
    rw [encodeNL_cons2, if_pos hx]
    simp only [List.length_append, List.length_cons, newLine_encoded_length]
    omega
  | case4 c1 c2 rest hx ih =>
    rw [encodeNL_cons2, if_neg hx]
    simp only [List.length_cons] at *
    omega

theorem getLast?_cons_of_ne_nil {α : Type} (a : α) (l : List α) (h : l ≠ []) :
    (a :: l).getLast? = l.getLast? := by
  cases l with
  | nil => cases h rfl
  | cons b m => rw [List.getLast?_cons_cons]

theorem encodeNL_ne_nil (t : Str) (h : t ≠ []) : encodeNL t ≠ [] := by
  intro hx
  have h1 := encodeNL_length_ge t
  rw [hx] at h1
  simp at h1
  exact h h1

theorem getLast?_append_of_ne_nil {α : Type} (a b : List α) (h : b ≠ []) :
    (a ++ b).getLast? = b.getLast? := by
  rw [List.getLast?_append]
  cases hb : b.getLast? with
  | none =>
    rw [List.getLast?_eq_none_iff] at hb
    exact absurd hb h
  | some z => rfl

/-- The encoding never introduces a trailing comma. -/
theorem encodeNL_getLast_ne_comma (t : Str) (h : t.getLast? ≠ some ',') :
    (encodeNL t).getLast? ≠ some ',' := by
  induction t using encodeNL.induct with
  | case1 => simp [encodeNL_nil]
  | case2 c => rw [encodeNL_single]; exact h
  | case3 c1 c2 rest hx ih =>
    rw [encodeNL_cons2, if_pos hx]
    cases hrest : rest with
    | nil =>
      rw [encodeNL_nil, List.append_nil, newLine_encoded_eq]
      decide
    | cons r0 rt =>
      rw [← hrest]
      have hne : rest ≠ [] := by rw [hrest]; simp
      rw [getLast?_append_of_ne_nil _ _ (encodeNL_ne_nil rest hne)]
      apply ih
      rw [List.getLast?_cons_cons, getLast?_cons_of_ne_nil c2 rest hne] at h
      exact h
  | case4 c1 c2 rest hx ih =>
    rw [encodeNL_cons2, if_neg hx]
    rw [getLast?_cons_of_ne_nil c1 _ (encodeNL_ne_nil (c2 :: rest) (by simp))]
    apply ih
    rw [List.getLast?_cons_cons] at h
    exact h

theorem map_encodeNL_id (lines : List Str)
    (hall : ∀ l ∈ lines, hasCRLF l = false) :
    lines.map encodeNL = lines := by
  induction lines with
  | nil => rfl
  | cons x xs ih =>
    rw [List.map_cons, encodeNL_id_of_no_crlf x (hall x (by simp)),
      ih (fun l hl => hall l (by simp [hl]))]

theorem prepare_of_no_crlf (lines : List Str)
    (hall : ∀ l ∈ lines, hasCRLF l = false) :
    prepare_doc_arr_to_str lines =
      if (joinSep lines).length > 0 then
        '[' :: SEP ++ joinSep lines ++ SEP ++ [']']
      else [] := by
  unfold prepare_doc_arr_to_str
  rw [map_encodeNL_id lines hall]
  by_cases h : (joinSep lines).length > 0
  · rw [if_pos h, if_pos h]
  · rw [if_neg h, if_neg h]
    cases hj : joinSep lines with
    | nil => rfl
    | cons a b =>
      rw [hj] at h
      simp at h

theorem docToString_getLast (d : Document) :
    (Document.docToString d).getLast? = some '\x7d' := by
  unfold Document.docToString
  exact List.getLast?_concat _

theorem idPattern_ne_nil (d : Document) : Document.idPattern d ≠ [] := by
  unfold Document.idPattern
  simp

theorem idPattern_length_ge (d : Document) :
    6 ≤ (Document.idPattern d).length := by
  unfold Document.idPattern
  simp

theorem stripTrailingComma_not_infix (pat l : Str) (h : ¬ pat <:+: l) :
    ¬ pat <:+: stripTrailingComma l := by
  unfold stripTrailingComma
  by_cases hc : l.getLast? = some ','
  · rw [if_pos hc]
    intro hi
    exact h (hi.trans (List.dropLast_prefix l).isInfix)
  · rw [if_neg hc]
    exact h

theorem stripTrailingComma_no_crlf (l : Str) (h : hasCRLF l = false) :
    hasCRLF (stripTrailingComma l) = false := by
  unfold stripTrailingComma
  by_cases hc : l.getLast? = some ','
  · rw [if_pos hc]
    obtain ⟨u, hu⟩ := List.dropLast_prefix l
    rw [← hu] at h
    exact hasCRLF_append_left _ _ h
  · rw [if_neg hc]
    exact h

/-- Every line delete_by_match keeps is CR LF free. -/
theorem deleteKeptLines_no_crlf (pattern file : Str) :
    ∀ l ∈ deleteKeptLines pattern file, hasCRLF l = false := by
  intro l hl
  unfold deleteKeptLines at hl
  rw [List.mem_map] at hl
  obtain ⟨l0, hl0, hstrip⟩ := hl
  rw [← hstrip]
  apply stripTrailingComma_no_crlf
  apply splitSep_no_crlf file
  exact (List.dropLast_sublist _).mem (List.mem_of_mem_filter hl0)

/-- No line delete_by_match keeps contains the encoded pattern. -/
theorem deleteKeptLines_no_pattern (pattern file : Str) :
    ∀ l ∈ deleteKeptLines pattern file, ¬ encodeNL pattern <:+: l := by
  intro l hl
  unfold deleteKeptLines at hl
  rw [List.mem_map] at hl
  obtain ⟨l0, hl0, hstrip⟩ := hl
  rw [← hstrip]
  apply stripTrailingComma_not_infix
  have hk := List.of_mem_filter hl0
  unfold keepLine at hk
  simp only [Bool.and_eq_true, Bool.not_eq_true', decide_eq_false_iff_not] at hk
  exact hk.2

/-- After delete-then-append, the only line of the file that can contain
the pattern is the newly appended record encoding. -/
theorem final_lines_property (kept : List Str) (doc : Str) (pat : Str)
    (hkept_crlf : ∀ l ∈ kept, hasCRLF l = false)
    (hkept_pat : ∀ l ∈ kept, ¬ pat <:+: l)
    (hdoc_comma : (encodeNL doc).getLast? ≠ some ',')
    (hpat6 : 6 ≤ pat.length) :
    ∀ l ∈ splitSep (save_to_file (prepare_doc_arr_to_str kept) doc),
      pat <:+: l → l = encodeNL doc := by
  have hshort : ∀ l : Str, l.length ≤ 1 → ¬ pat <:+: l := by
    intro l hlen hi
    have := hi.length_le
    omega
  by_cases hj : (joinSep kept).length > 0
  · have hkne : kept ≠ [] := by
      intro hx
      rw [hx] at hj
      simp [joinSep] at hj
    have hprep : prepare_doc_arr_to_str kept = layoutRecords kept := by
      rw [prepare_of_no_crlf kept hkept_crlf, if_pos hj,
        layoutRecords_of_ne_nil kept hkne]
    rw [hprep, save_to_file_layout kept doc hkne]
    rw [splitSep_layout (kept ++ [encodeNL doc]) (by simp) ?_ ?_]
    · intro l hl hpl
      rcases List.mem_cons.mp hl with hl | hl
      · exact absurd hpl (hshort _ (by rw [hl]; rfl))
      rcases List.mem_append.mp hl with hl | hl
      · rcases List.mem_append.mp hl with hl | hl
        · exact absurd hpl (hkept_pat l hl)
        · simpa using hl
      · have : l = [']'] := by simpa using hl
        exact absurd hpl (hshort _ (by rw [this]; rfl))
    · intro r hr
      rcases List.mem_append.mp hr with hr | hr
      · exact hkept_crlf r hr
      · have : r = encodeNL doc := by simpa using hr
        rw [this]
        exact hasCRLF_encodeNL doc
    · intro r hr
      rw [List.getLast?_concat] at hr
      injection hr with hr
      rw [← hr]
      exact hdoc_comma
  · have hj0 : joinSep kept = [] := by
      cases hjs : joinSep kept with
      | nil => rfl
      | cons a b =>
        rw [hjs] at hj
        simp at hj
    have hprep : prepare_doc_arr_to_str kept = [] := by
      rw [prepare_of_no_crlf kept hkept_crlf, if_neg hj]
    have hlay : ('[' :: SEP ++ encodeNL doc ++ SEP ++ [']'] : Str) =
        layoutRecords [encodeNL doc] := by
      rw [layoutRecords_of_ne_nil _ (by simp), joinSep_singleton]
    rw [hprep, save_to_file_empty, hlay]
    rw [splitSep_layout [encodeNL doc] (by simp) ?_ ?_]
    · intro l hl hpl
      rcases List.mem_cons.mp hl with hl | hl
      · exact absurd hpl (hshort _ (by rw [hl]; rfl))
      rcases List.mem_append.mp hl with hl | hl
      · simpa using hl
      · have : l = [']'] := by simpa using hl
        exact absurd hpl (hshort _ (by rw [this]; rfl))
    · intro r hr
      have : r = encodeNL doc := by simpa using hr
      rw [this]
      exact hasCRLF_encodeNL doc
    · intro r hr
      simp only [List.getLast?_singleton, Option.some.injEq] at hr
      rw [← hr]
      exact hdoc_comma

theorem delete_by_match_file_eq (pattern file : Str) :
    delete_by_match_file pattern file =
      prepare_doc_arr_to_str (deleteKeptLines pattern file) := rfl

/-- A sample schema for concrete instantiations. -/
def sampleSchema : Schema :=
  ⟨[("title".toList, ⟨.vStr ("string".toList), .vBool true, .vStr []⟩)],
   ⟨true⟩⟩

/-- A sample already-persisted document for concrete instantiations. -/
def sampleDocSaved : Document :=
  ⟨.vStr ("7-5-ab".toList), [("title".toList, .vStr ("A".toList))],
   some 100, some 100, sampleSchema, true⟩

/-- A sample stored file holding an older encoding of the sample document
and one other record. -/
def sampleFile : Str :=
  layoutRecords
    ["\x7b\"_id\":\"7-5-ab\",\"title\":\"Old\"\x7d".toList,
     "\x7b\"_id\":\"9-9-cd\",\"title\":\"B\"\x7d".toList]

/-- C3: saving an already-persisted record is delete-then-append. With the
record marked persisted, save first runs delete_by_match with the quoted-id
pattern and then appends the record's new encoding, marking it persisted
(second conjunct); every line the removal step keeps is free of the encoded
quoted-id pattern (third conjunct); if the removal step fails (here: the
read stream fails), save rejects with that error, the file is unchanged and
nothing is appended (first conjunct); and in the resulting file the only
line that can contain the quoted-id pattern is the newly appended encoding,
so no duplicate encoding of the record is ever written (fourth conjunct). -/
theorem c3_persisted_save_delete_then_append (d : Document) (file : Str)
    (hsaved : d.saved = true) :
    (Document.save d true false file =
        (file, d, some "Failed reading from file")) ∧
    (Document.save d true true file =
        (save_to_file
          (prepare_doc_arr_to_str (deleteKeptLines (Document.idPattern d) file))
          (Document.docToString d),
         { d with saved := true }, none)) ∧
    (∀ l ∈ deleteKeptLines (Document.idPattern d) file,
        ¬ encodeNL (Document.idPattern d) <:+: l) ∧
    (∀ l ∈ splitSep (Document.save d true true file).1,
        encodeNL (Document.idPattern d) <:+: l →
          l = encodeNL (Document.docToString d)) := by
  have hpat : Document.idPattern d ≠ [] := idPattern_ne_nil d
  have h2 : Document.save d true true file =
      (save_to_file
        (prepare_doc_arr_to_str (deleteKeptLines (Document.idPattern d) file))
        (Document.docToString d),
       { d with saved := true }, none) := by
    simp [Document.save, delete_by_match, hsaved, hpat, delete_by_match_file_eq]
  refine ⟨?_, h2, deleteKeptLines_no_pattern _ _, ?_⟩
  · simp [Document.save, delete_by_match, hsaved, hpat]
  · rw [h2]
    exact final_lines_property _ _ _
      (deleteKeptLines_no_crlf _ _)
      (deleteKeptLines_no_pattern _ _)
      (encodeNL_getLast_ne_comma _ (by rw [docToString_getLast]; simp))
      (le_trans (idPattern_length_ge d) (encodeNL_length_ge _))

/-- C3 witness: the failure and success equations at a concrete persisted
record and file. -/
theorem c3_persisted_save_witness :
    sampleDocSaved.saved = true ∧
    Document.save sampleDocSaved true false sampleFile =
      (sampleFile, sampleDocSaved, some "Failed reading from file") :=
  ⟨rfl, (c3_persisted_save_delete_then_append sampleDocSaved sampleFile rfl).1⟩

/-- C2 witness: the layout equations at concrete inputs. -/
theorem c2_save_keeps_layout_witness :
    (["aa".toList] : List Str) ≠ [] ∧
    save_to_file (layoutRecords ["aa".toList]) "bb".toList =
      layoutRecords (["aa".toList] ++ [encodeNL "bb".toList]) ∧
    List.foldl save_to_file [] ["aa".toList, "bb".toList] =
      layoutRecords (["aa".toList, "bb".toList].map encodeNL) :=
  ⟨by decide,
   (c2_save_keeps_layout.2.2.1 ["aa".toList] "bb".toList (by decide)).1,
   c2_save_keeps_layout.2.2.2.2 ["aa".toList, "bb".toList]⟩

/-! Lemmas about content validation (Document.#setup_content). -/

theorem setup_content_nil (content : List (Str × Value)) :
    Document.setup_content [] content = .ok [] := rfl

/-- The value returned by a successful validation: exactly the declared
fields, each bound to the content's value when present and to the schema
default when absent. -/
theorem setup_content_ok_eq (schemaDef : List (Str × FieldSpec))
    (content : List (Str × Value)) (res : List (Str × Value))
    (h : Document.setup_content schemaDef content = .ok res) :
    res = schemaDef.map (fun p =>
      (p.1, match alookup p.1 content with
            | none => p.2.default
            | some v => v)) := by
  induction schemaDef generalizing res with
  | nil =>
    rw [setup_content_nil] at h
    injection h with h
    rw [← h]
    rfl
  | cons p rest ih =>
    obtain ⟨param, spec⟩ := p
    unfold Document.setup_content at h
    split at h
    · rename_i hlook
      split at h
      · exact Except.noConfusion h
      · split at h
        · exact Except.noConfusion h
        · rename_i r hrest
          injection h with h
          rw [← h, List.map_cons]
          simp only [hlook]
          rw [ih r hrest]
    · rename_i v hlook
      split at h
      · split at h
        · exact Except.noConfusion h
        · rename_i r hrest
          injection h with h
          rw [← h, List.map_cons]
          simp only [hlook]
          rw [ih r hrest]
      · exact Except.noConfusion h

theorem setup_content_cons_eq (param : Str) (spec : FieldSpec)
    (rest : List (Str × FieldSpec)) (content : List (Str × Value)) :
    Document.setup_content ((param, spec) :: rest) content =
      (match alookup param content with
       | none =>
         if jsTruthy spec.required then
           .error ("Missing required parameter " ++ param.asString ++ " in content!")
         else
           match Document.setup_content rest content with
           | .error e => .error e
           | .ok r => .ok ((param, spec.default) :: r)
       | some v =>
         if strictEqStr spec.type (typeX v) then
           match Document.setup_content rest content with
           | .error e => .error e
           | .ok r => .ok ((param, v) :: r)
         else
           .error ("Wrong parameter " ++ param.asString ++ " type in content!")) := rfl

/-- Validation succeeds exactly when every declared field is either absent
with a falsy required flag or present with the declared stored type. -/
theorem setup_content_ok_iff (schemaDef : List (Str × FieldSpec))
    (content : List (Str × Value)) :
    (Document.setup_content schemaDef content).isOk = true ↔
      ∀ param spec, (param, spec) ∈ schemaDef →
        (alookup param content = none → jsTruthy spec.required = false) ∧
        (∀ v, alookup param content = some v →
          strictEqStr spec.type (typeX v) = true) := by
  induction schemaDef with
  | nil =>
    rw [setup_content_nil]
    simp [Except.isOk, Except.toBool]
  | cons p rest ih =>
    obtain ⟨param, spec⟩ := p
    have hexp : (Document.setup_content ((param, spec) :: rest) content).isOk = true ↔
        (((alookup param content = none → jsTruthy spec.required = false) ∧
          (∀ v, alookup param content = some v →
            strictEqStr spec.type (typeX v) = true)) ∧
         (Document.setup_content rest content).isOk = true) := by
      rw [setup_content_cons_eq]
      split
      · rename_i hlook
        by_cases hreq : jsTruthy spec.required
        · rw [if_pos hreq]
          constructor
          · intro hfalse
            exact absurd hfalse (by simp [Except.isOk, Except.toBool])
          · intro hx
            exact absurd (hx.1.1 hlook) (by simp [hreq])
        · rw [if_neg hreq]
          split
          · rename_i e hrest
            constructor
            · intro hfalse
              exact absurd hfalse (by simp [Except.isOk, Except.toBool])
            · intro hx
              have hx2 := hx.2
              rw [hrest] at hx2
              exact absurd hx2 (by simp [Except.isOk, Except.toBool])
          · rename_i r hrest
            constructor
            · intro _
              refine ⟨⟨fun _ => by simpa using hreq, fun v hv => ?_⟩, by rw [hrest]; rfl⟩
              rw [hv] at hlook
              cases hlook
            · intro _
              simp [Except.isOk, Except.toBool]
      · rename_i v hlook
        by_cases hty : strictEqStr spec.type (typeX v)
        · rw [if_pos hty]
          split
          · rename_i e hrest
            constructor
            · intro hfalse
              exact absurd hfalse (by simp [Except.isOk, Except.toBool])
            · intro hx
              have hx2 := hx.2
              rw [hrest] at hx2
              exact absurd hx2 (by simp [Except.isOk, Except.toBool])
          · rename_i r hrest
            constructor
            · intro _
              refine ⟨⟨fun hn => ?_, fun w hw => ?_⟩, by rw [hrest]; rfl⟩
              · rw [hn] at hlook
                cases hlook
              · rw [hw] at hlook
                injection hlook with hlook
                rw [hlook]
                exact hty
            · intro _
              simp [Except.isOk, Except.toBool]
        · rw [if_neg hty]
          constructor
          · intro hfalse
            exact absurd hfalse (by simp [Except.isOk, Except.toBool])
          · intro hx
            exact absurd (hx.1.2 v hlook) (by simp [hty])
    rw [hexp, ih]
    constructor
    · intro hx param2 spec2 hmem
      rcases List.mem_cons.mp hmem with hmem | hmem
      · injection hmem with h1 h2
        subst h1
        subst h2
        exact hx.1
      · exact hx.2 param2 spec2 hmem
    · intro hx
      exact ⟨hx param spec (by simp), fun p2 s2 hm => hx p2 s2 (by simp [hm])⟩

/-- C1: validation returns a freshly built mapping containing exactly the
schema's declared fields. On success the result is exactly the declared
field list — an absent optional field filled with the schema's default, a
present correctly-typed field copied — so its keys are precisely the
declared keys in declaration order; and validation succeeds if and only if
every declared field is either absent with required falsy or present with
the declared runtime type, so a missing required field or a present
type-mismatched field raises a ValidationError. The embedding is pure: the
result is built anew and the input mapping cannot be mutated. -/
theorem c1_validate_content (schemaDef : List (Str × FieldSpec))
    (content : List (Str × Value)) :
    (∀ res, Document.setup_content schemaDef content = .ok res →
        res = schemaDef.map (fun p =>
          (p.1, match alookup p.1 content with
                | none => p.2.default
                | some v => v)) ∧
        res.map Prod.fst = schemaDef.map Prod.fst) ∧
    ((Document.setup_content schemaDef content).isOk = true ↔
      ∀ param spec, (param, spec) ∈ schemaDef →
        (alookup param content = none → jsTruthy spec.required = false) ∧
        (∀ v, alookup param content = some v →
          strictEqStr spec.type (typeX v) = true)) := by
  refine ⟨fun res h => ⟨setup_content_ok_eq _ _ _ h, ?_⟩,
    setup_content_ok_iff _ _⟩
  rw [setup_content_ok_eq _ _ _ h, List.map_map]
  rfl

/-- C1 witness: validation of a concrete content against the sample
schema. -/
theorem c1_validate_content_witness :
    Document.setup_content sampleSchema.definition
        [("title".toList, Value.vStr ("A".toList))] =
      .ok [("title".toList, Value.vStr ("A".toList))] ∧
    [("title".toList, Value.vStr ("A".toList))] =
      sampleSchema.definition.map (fun p =>
        (p.1,
          match alookup p.1 [("title".toList, Value.vStr ("A".toList))] with
          | none => p.2.default
          | some v => v)) :=
  ⟨rfl, ((c1_validate_content sampleSchema.definition
      [("title".toList, Value.vStr ("A".toList))]).1 _ rfl).1⟩

/-- C4: edit is all-or-nothing. When the new content validates, edit
returns the record with the content replaced and updatedAt advanced to now,
all other fields (id, createdAt, schema, persisted flag) untouched; when
validation fails, edit throws the validation error and the observable state
after the call is exactly the record as it was, since the error propagates
before any field assignment. -/
theorem c4_edit_all_or_nothing (d : Document)
    (newContent : List (Str × Value)) (now : Int) :
    (∀ res, Document.setup_content d.schema.definition newContent = .ok res →
        Document.edit d newContent now =
          .ok { d with content := res, updateTime := some now }) ∧
    (∀ e, Document.setup_content d.schema.definition newContent = .error e →
        Document.edit d newContent now = .error e ∧
        Document.editRun d newContent now = d) := by
  constructor
  · intro res h
    unfold Document.edit
    rw [h]
  · intro e h
    have hedit : Document.edit d newContent now = .error e := by
      unfold Document.edit
      rw [h]
    refine ⟨hedit, ?_⟩
    unfold Document.editRun
    rw [hedit]

/-- C4 witness: a failed edit of the sample record leaves it unchanged, and
a successful edit replaces content and updatedAt. -/
theorem c4_edit_all_or_nothing_witness :
    Document.setup_content sampleDocSaved.schema.definition
        [("title".toList, Value.vNum 1)] =
      .error "Wrong parameter title type in content!" ∧
    Document.editRun sampleDocSaved [("title".toList, Value.vNum 1)] 7 =
      sampleDocSaved :=
  ⟨rfl,
   ((c4_edit_all_or_nothing sampleDocSaved [("title".toList, Value.vNum 1)] 7).2
      _ rfl).2⟩

/-- C7: every new_document call advances the model's counter by exactly
one — the post-increment happens when the constructor argument is
evaluated, before construction can throw, so the advance is unconditional —
and over any sequence of calls the handed-out seeds are the consecutive
integers starting at the initial counter, hence pairwise distinct (the
counter lock serializes concurrent calls within the process). -/
theorem c7_counter_advances_and_seeds_distinct (m : Model)
    (parseDate : Str → Option Int) (content : List (Str × Value))
    (now : Int) (randHex : Str) :
    ((Model.new_document m parseDate content now randHex).2).countDocs =
      m.countDocs + 1 ∧
    (∀ calls, (Model.runNewDocuments m parseDate calls).1 =
        List.range' m.countDocs calls.length) ∧
    (∀ calls, ((Model.runNewDocuments m parseDate calls).2).countDocs =
        m.countDocs + calls.length) ∧
    (∀ calls, ((Model.runNewDocuments m parseDate calls).1).Nodup) := by
  have hseeds : ∀ calls (m2 : Model),
      (Model.runNewDocuments m2 parseDate calls).1 =
        List.range' m2.countDocs calls.length ∧
      ((Model.runNewDocuments m2 parseDate calls).2).countDocs =
        m2.countDocs + calls.length := by
    intro calls
    induction calls with
    | nil => intro m2; simp [Model.runNewDocuments]
    | cons c rest ih =>
      intro m2
      obtain ⟨cc, cn, cr⟩ := c
      simp only [Model.runNewDocuments]
      have hstep : (Model.new_document m2 parseDate cc cn cr).2 =
          { m2 with countDocs := m2.countDocs + 1 } := rfl
      rw [hstep]
      obtain ⟨ih1, ih2⟩ := ih { m2 with countDocs := m2.countDocs + 1 }
      constructor
      · rw [List.length_cons, List.range'_succ]
        rw [ih1]
      · rw [ih2]
        simp
        omega
  refine ⟨rfl, fun calls => (hseeds calls m).1,
    fun calls => (hseeds calls m).2, fun calls => ?_⟩
  rw [(hseeds calls m).1]
  exact List.nodup_range' _ _

/-- C8 (permission check defect): connecting to an existing regular .json
file that lacks all read and write permission (mode 0) succeeds. In
check_db_file the permission condition starts with mode & F_OK, and
fs.constants.F_OK is 0, so the conjunction is always falsy and every
regular file is accepted whatever its mode — the source's own comment
says the permission test currently fails. The claim that such a connect
fails is therefore right about the intent and wrong about the code. -/
theorem c8_connect_accepts_unreadable_file :
    check_db_file ("db.json".toList) (.found true 0) = .ok .validExisting ∧
    (DBHandler.connect_dbFilePath ("db.json".toList) (.found true 0)).1.dbFilePath =
      some ("db.json".toList) ∧
    (DBHandler.connect_dbFilePath ("db.json".toList) (.found true 0)).2 = none ∧
    DBHandler.is_connected
      (DBHandler.connect_dbFilePath ("db.json".toList) (.found true 0)).1 = true := by
  exact ⟨rfl, rfl, rfl, rfl⟩

/-! Lemmas for Schema.copy. -/

theorem set_definition_go_raw (defs : List (Str × FieldSpec))
    (hval : ∀ p ∈ defs,
      Schema.is_valid_definition_param_format (Schema.rawOfSpec p.2) = true) :
    Schema.set_definition_go (defs.map (fun p => (p.1, Schema.rawOfSpec p.2))) =
      some defs := by
  induction defs with
  | nil => rfl
  | cons p rest ih =>
    obtain ⟨param, spec⟩ := p
    rw [List.map_cons]
    unfold Schema.set_definition_go
    rw [if_pos (hval (param, spec) (by simp))]
    have hty : alookup ("type".toList) (Schema.rawOfSpec spec) =
        some spec.type := rfl
    have hrq : alookup ("required".toList) (Schema.rawOfSpec spec) =
        some spec.required := rfl
    have hdf : alookup ("default".toList) (Schema.rawOfSpec spec) =
        some spec.default := rfl
    rw [hty, hrq, hdf]
    simp only [Option.getD_some]
    rw [ih (fun q hq => hval q (by simp [hq]))]

theorem schema_copy_eq (s : Schema) (hval : Schema.is_valid_schema s = true) :
    Schema.copy s = .ok s := by
  unfold Schema.is_valid_schema at hval
  rw [Bool.and_eq_true] at hval
  have hne : s.definition ≠ [] := by
    intro hx
    rw [hx] at hval
    simp at hval
  have hall : ∀ p ∈ s.definition,
      Schema.is_valid_definition_param_format (Schema.rawOfSpec p.2) = true := by
    have := hval.2
    rw [List.all_eq_true] at this
    exact fun p hp => this p hp
  unfold Schema.copy Schema.schemaNew Schema.set_definition
  have hraw : Schema.rawDefinition s =
      s.definition.map (fun p => (p.1, Schema.rawOfSpec p.2)) := rfl
  rw [hraw, set_definition_go_raw s.definition hall]
  rw [if_neg (by simp [hne])]
  have hopts : Schema.set_options
      (some [("timestamps".toList, Value.vBool s.options.timestamps)]) =
        .ok ⟨s.options.timestamps⟩ := rfl
  rw [hopts]
  rfl

/-- C9: for a valid schema, copy rebuilds an equal schema — the normalized
definition round-trips through the raw property objects of the definition
getter and the options round-trip through set_options — so the copy
validates any content exactly as the original does. The model's values are
immutable, so the copy shares no mutable state with the original. -/
theorem c9_copy_validates_identically (s : Schema)
    (hval : Schema.is_valid_schema s = true) :
    Schema.copy s = .ok s ∧
    (∀ s2, Schema.copy s = .ok s2 →
      ∀ content, Document.setup_content s2.definition content =
        Document.setup_content s.definition content) := by
  have h := schema_copy_eq s hval
  refine ⟨h, fun s2 h2 content => ?_⟩
  rw [h] at h2
  injection h2 with h2
  rw [← h2]

/-- C9 witness: copying the sample schema returns an equal schema. -/
theorem c9_copy_validates_identically_witness :
    Schema.is_valid_schema sampleSchema = true ∧
    Schema.copy sampleSchema = .ok sampleSchema :=
  ⟨rfl, (c9_copy_validates_identically sampleSchema rfl).1⟩

/-- C10: the _id adoption guard of the Document constructor is vacuously
true — it tests typeof (content._id === typeof this._id), the typeof of a
boolean, which is the always-nonempty string "boolean" — so any _id value
present in the content is adopted whatever its runtime type, and for a
non-string _id (which is never the empty string the mint check compares
against) no fresh id is minted: the constructed record's id is exactly the
supplied value. -/
theorem c10_id_adopted_regardless_of_type (parseDate : Str → Option Int)
    (content : List (Str × Value)) (schema : Schema) (idSeed now : Int)
    (randHex : Str) (v : Value) (res : List (Str × Value))
    (hval : Schema.is_valid_schema schema = true)
    (hok : Document.setup_content schema.definition content = .ok res)
    (hlook : alookup ("_id".toList) content = some v)
    (hnstr : ∀ s, v ≠ .vStr s) :
    (∀ w : Value, Document.idAdoptionCheck w = true) ∧
    (∃ d, Document.documentNew parseDate content schema idSeed now randHex =
        .ok d ∧ d.id = v) := by
  have hcheck : Document.idAdoptionCheck v = true := rfl
  have hse : strictEqStr v [] = false := by
    cases v <;> first | rfl | exact absurd rfl (hnstr _)
  refine ⟨fun w => rfl, ?_⟩
  unfold Document.documentNew
  rw [if_neg (by simp [hval]), hok]
  simp only [hlook, hcheck, if_true, hse, Bool.false_eq_true, if_false]
  exact ⟨_, rfl, rfl⟩

/-- C10 witness: a numeric _id supplied through the content becomes the
record's id. -/
theorem c10_id_adopted_witness :
    Document.setup_content sampleSchema.definition
        [("title".toList, Value.vStr ("A".toList)),
         ("_id".toList, Value.vNum 42)] =
      .ok [("title".toList, Value.vStr ("A".toList))] ∧
    (∃ d, Document.documentNew (fun _ => none)
        [("title".toList, Value.vStr ("A".toList)),
         ("_id".toList, Value.vNum 42)] sampleSchema 7 5000 ("abcdef".toList) =
          .ok d ∧ d.id = Value.vNum 42) :=
  ⟨rfl,
   (c10_id_adopted_regardless_of_type (fun _ => none)
      [("title".toList, Value.vStr ("A".toList)),
       ("_id".toList, Value.vNum 42)] sampleSchema 7 5000
      ("abcdef".toList) (Value.vNum 42)
      [("title".toList, Value.vStr ("A".toList))] rfl rfl rfl
      (fun s h => by cases h)).2⟩

/-- Whether a parsed document carries an _id that is one of the requested
id strings (the documented match criterion for findByIdAndDelete). -/
def docMatchesIds (ids : List Str) (doc : List (Str × Value)) : Bool :=
  match alookup ("_id".toList) doc with
  | none => false
  | some v => Model.idIncluded ids v

/-- C6: findByIdAndDelete removes exactly the matching records. Over any
stored collection in which every record carries an _id (the spec's record
shape), the returned subset is exactly the records whose _id is among the
requested ids, and the collection written back is exactly the other
records, unchanged and in their original order. A record rehydrated with
reconstruct_doc and saved = false is marked not persisted, and saving a
not-persisted record takes the plain append branch — a new entry is
written rather than the old one resurrected by delete-then-append. -/
theorem c6_findByIdAndDelete_exact (docs : List (List (Str × Value)))
    (ids : List Str)
    (hwf : ∀ doc ∈ docs, (alookup ("_id".toList) doc).isSome = true) :
    (Model.findByIdAndDelete docs ids).2 = docs.filter (docMatchesIds ids) ∧
    (Model.findByIdAndDelete docs ids).1 =
      docs.filter (fun doc => !(docMatchesIds ids doc)) ∧
    (∀ parseDate content schema now randHex d,
        Document.reconstruct_doc parseDate content schema false now randHex =
          some d → d.saved = false) ∧
    (∀ (d : Document), d.saved = false → ∀ readOk file,
        Document.save d true readOk file =
          (save_to_file file (Document.docToString d),
           { d with saved := true }, none)) := by
  refine ⟨?_, ?_, ?_, ?_⟩
  · rfl
  · unfold Model.findByIdAndDelete Model.exclude_docs_array_by_ids
    refine List.filter_congr ?_
    intro doc hdoc
    have hw := hwf doc hdoc
    cases hl : alookup ("_id".toList) doc with
    | none =>
      rw [hl] at hw
      cases hw
    | some v =>
      unfold docMatchesIds
      rw [hl]
  · intro parseDate content schema now randHex d h
    unfold Document.reconstruct_doc at h
    split at h
    · exact Option.noConfusion h
    · split at h
      · exact Option.noConfusion h
      · split at h
        · exact Option.noConfusion h
        · injection h with h
          rw [← h]
  · intro d hd readOk file
    unfold Document.save
    rw [hd]
    simp

/-- C6 witness: deleting one of two concrete stored records. -/
theorem c6_findByIdAndDelete_witness :
    (∀ doc ∈ [[(("_id".toList : Str), Value.vStr ("a1".toList))],
              [(("_id".toList : Str), Value.vStr ("b2".toList))]],
      (alookup ("_id".toList) doc).isSome = true) ∧
    (Model.findByIdAndDelete
        [[(("_id".toList : Str), Value.vStr ("a1".toList))],
         [(("_id".toList : Str), Value.vStr ("b2".toList))]]
        ["a1".toList]).1 =
      [[(("_id".toList : Str), Value.vStr ("b2".toList))]] := by
  refine ⟨by decide, ?_⟩
  rw [(c6_findByIdAndDelete_exact _ ["a1".toList] (by decide)).2.1]
  rfl

end StoriesDB
